import Mathlib

/-!
Verification of the spintax combinatorial string generator (`src/index.mjs`)
against its natural-language specification.

The JavaScript source is shallowly embedded below.  Modelling conventions:

* Strings are processed as `List Char`; the public entry points convert from
  and to `String` at the boundary.
* JavaScript numbers (IEEE doubles) are idealised as exact rationals,
  represented by the unreduced fraction type `JsNumber` (numerator `ℤ`,
  positive denominator `ℕ`) so that every arithmetic step is plain integer
  arithmetic and kernel-evaluable.  IEEE rounding is not modelled, except for
  the overflow-to-Infinity threshold which the range-pattern validity check
  observes through `isFinite`.
* JavaScript whitespace (`\s`, `trim`) is modelled by its ASCII subset.
* Configuration delimiters, separators and the back-reference marker are
  modelled as single literal characters (the library builds regexes from
  them; regex-special or multi-character configuration values are out of
  scope of this embedding).
* The generator protocol (`values()`, `Symbol.iterator`) is modelled by
  finite lists; lazy iteration order is the list order.
-/

namespace Spintax

/-! ### Character helpers -/

/-- ASCII part of JavaScript's `\s` character class (used by `replace(/\s+/g)`
and `String.prototype.trim`). -/
def isJsSpace (c : Char) : Bool :=
  c == ' ' || c == '\t' || c == '\n' || c == '\r' || c == '\x0b' || c == '\x0c'

/-- Model of `pattern.replace(/\s+/g, "")`: removing every whitespace run is
removing every whitespace character. -/
def removeWhitespace (cs : List Char) : List Char :=
  cs.filter (fun c => !isJsSpace c)

/-- Model of `String.prototype.trim`. -/
def jsTrim (cs : List Char) : List Char :=
  ((cs.dropWhile isJsSpace).reverse.dropWhile isJsSpace).reverse

/-- Model of `str.replace(new RegExp("\\<sep>+$"), "")`: drop a maximal
trailing run of the separator character. -/
def stripTrailingRun (sep : Char) (cs : List Char) : List Char :=
  (cs.reverse.dropWhile (· == sep)).reverse

/-- Model of JavaScript `str.split(sep)` for a single-character separator. -/
def splitOnChar (sep : Char) : List Char → List (List Char)
  | [] => [[]]
  | c :: rest =>
    match splitOnChar sep rest with
    | h :: t => if c == sep then [] :: h :: t else (c :: h) :: t
    | [] => [[c]]

/-- Model of `parseInt(digits, 10)` on a string of decimal digits. -/
def digitsToNat (ds : List Char) : ℕ :=
  ds.foldl (fun a c => 10 * a + (c.toNat - 48)) 0

/-- Executable substring test (used only to state claims about outputs). -/
def isSubChars (needle : List Char) : List Char → Bool
  | [] => needle.isEmpty
  | c :: rest => List.isPrefixOf needle (c :: rest) || isSubChars needle rest

/-! ### Exact JavaScript numbers -/

/-- An exact JavaScript number: the unreduced fraction `num / den`.  Every
operation below keeps `den` positive; fractions are deliberately not reduced
(no `gcd`), which keeps all arithmetic kernel-evaluable. -/
structure JsNumber where
  num : ℤ
  den : ℕ
deriving DecidableEq

namespace JsNumber

def ofInt (i : ℤ) : JsNumber := ⟨i, 1⟩

def ofNat (n : ℕ) : JsNumber := ⟨(n : ℤ), 1⟩

def add (a b : JsNumber) : JsNumber :=
  ⟨a.num * (b.den : ℤ) + b.num * (a.den : ℤ), a.den * b.den⟩

def sub (a b : JsNumber) : JsNumber :=
  ⟨a.num * (b.den : ℤ) - b.num * (a.den : ℤ), a.den * b.den⟩

def mul (a b : JsNumber) : JsNumber :=
  ⟨a.num * b.num, a.den * b.den⟩

/-- Division.  Division by zero yields `±Infinity` in JavaScript; it is
unreachable on every path a claim exercises (see `rangeValues`), and is
mapped to an arbitrary value here. -/
def div (a b : JsNumber) : JsNumber :=
  if b.num < 0 then ⟨-(a.num * (b.den : ℤ)), a.den * (-b.num).toNat⟩
  else if b.num = 0 then ⟨0, 1⟩
  else ⟨a.num * (b.den : ℤ), a.den * b.num.toNat⟩

/-- Value comparison `a <= b` (cross-multiplication; denominators are
positive by construction). -/
def le (a b : JsNumber) : Prop := a.num * (b.den : ℤ) ≤ b.num * (a.den : ℤ)

instance : Decidable (le a b) := by unfold le; infer_instance

/-- Value comparison `a < b`. -/
def lt (a b : JsNumber) : Prop := a.num * (b.den : ℤ) < b.num * (a.den : ℤ)

instance : Decidable (lt a b) := by unfold lt; infer_instance

/-- Value equality `a === b` (JavaScript compares numeric values, not
representations). -/
def veq (a b : JsNumber) : Prop := a.num * (b.den : ℤ) = b.num * (a.den : ℤ)

instance : Decidable (veq a b) := by unfold veq; infer_instance

/-- JavaScript Math.floor, exact on rationals; `Int./` is Euclidean division, which is
floor division for a positive denominator. -/
def floor (q : JsNumber) : ℤ := q.num / (q.den : ℤ)

/-- Truncation toward zero, as used by JavaScript's `%`. -/
def trunc (q : JsNumber) : ℤ := Int.tdiv q.num (q.den : ℤ)

/-- The rational value of a `JsNumber` (proof-side bridge only). -/
def val (q : JsNumber) : ℚ := (q.num : ℚ) / (q.den : ℚ)

end JsNumber

/-- JavaScript `a % b` (sign of the dividend: `a - b * trunc(a / b)`). -/
def jsRem (a b : JsNumber) : JsNumber :=
  a.sub (b.mul (JsNumber.ofInt ((a.div b).trunc)))

/-! ### Number parsing (`parseFloat` and `Number`) -/

/-- Mantissa value `ip . fp` as an exact fraction. -/
def mantissaValue (ip fp : List Char) : JsNumber :=
  ⟨(digitsToNat ip : ℤ) * (10 ^ fp.length : ℕ) + (digitsToNat fp : ℤ), 10 ^ fp.length⟩

/-- Apply an optional exponent part (`e`/`E`, optional sign, one or more
digits) to a parsed mantissa; returns the value and the unconsumed rest.
When the exponent part does not fully match it is not consumed (longest-match
semantics of the StrDecimalLiteral grammar). -/
def applyExponent (q : JsNumber) : List Char → JsNumber × List Char
  | [] => (q, [])
  | c :: rest =>
    if c == 'e' || c == 'E' then
      let signed : Bool × List Char :=
        match rest with
        | '+' :: r => (false, r)
        | '-' :: r => (true, r)
        | r => (false, r)
      let ds := signed.2.takeWhile Char.isDigit
      if ds.isEmpty then (q, c :: rest)
      else
        let e := digitsToNat ds
        ((if signed.1 then q.div (JsNumber.ofNat (10 ^ e))
          else q.mul (JsNumber.ofNat (10 ^ e))), signed.2.dropWhile Char.isDigit)
    else (q, c :: rest)

/-- Longest-prefix parse of an unsigned StrDecimalLiteral
(`digits [. digits] [exp]` or `. digits [exp]`); returns the value and the
unconsumed rest, or `none` when no prefix matches. -/
def parseDecPrefix (cs : List Char) : Option (JsNumber × List Char) :=
  let ip := cs.takeWhile Char.isDigit
  match cs.dropWhile Char.isDigit with
  | '.' :: r2 =>
    let fp := r2.takeWhile Char.isDigit
    if ip.isEmpty && fp.isEmpty then none
    else some (applyExponent (mantissaValue ip fp) (r2.dropWhile Char.isDigit))
  | r1 =>
    if ip.isEmpty then none
    else some (applyExponent (mantissaValue ip []) r1)

/-- Signed variant of `parseDecPrefix`. -/
def parseSignedDec (cs : List Char) : Option (JsNumber × List Char) :=
  match cs with
  | '+' :: rest => parseDecPrefix rest
  | '-' :: rest => (parseDecPrefix rest).map (fun p => (⟨-p.1.num, p.1.den⟩, p.2))
  | _ => parseDecPrefix cs

/-- Model of `parseFloat` restricted to finite results: the value of the
longest StrDecimalLiteral prefix.  (An `Infinity` prefix is handled
separately by `infinityLeads`.) -/
def jsParseFloat (cs : List Char) : Option JsNumber :=
  (parseSignedDec cs).map Prod.fst

/-- Whether `parseFloat` would return `±Infinity` (a defined, non-NaN
result) because the input starts with an optionally signed `Infinity`. -/
def infinityLeads (cs : List Char) : Bool :=
  match cs with
  | '+' :: rest => List.isPrefixOf "Infinity".data rest
  | '-' :: rest => List.isPrefixOf "Infinity".data rest
  | _ => List.isPrefixOf "Infinity".data cs

/-- Model of `!isNaN(parseFloat(part))`. -/
def parseFloatDefined (cs : List Char) : Bool :=
  (jsParseFloat cs).isSome || infinityLeads cs

/-- Value of a hexadecimal-style digit, if any. -/
def hexDigitVal (c : Char) : Option ℕ :=
  if c.isDigit then some (c.toNat - 48)
  else if 'a' ≤ c && c ≤ 'f' then some (c.toNat - 87)
  else if 'A' ≤ c && c ≤ 'F' then some (c.toNat - 55)
  else none

/-- Value of a NonDecimalIntegerLiteral digit string in base `b`. -/
def radixValue (b : ℕ) (ds : List Char) : Option JsNumber :=
  if ds.isEmpty then none
  else if ds.all (fun c => ((hexDigitVal c).map (fun v => decide (v < b))).getD false) then
    some ⟨(ds.foldl (fun a c => b * a + (hexDigitVal c).getD 0) 0 : ℕ), 1⟩
  else none

/-- Full-string decimal literal (optionally signed), i.e. `parseSignedDec`
consuming the entire input. -/
def decFullValue (cs : List Char) : Option JsNumber :=
  match parseSignedDec cs with
  | some (q, []) => some q
  | _ => none

/-- Model of `Number(part)` for whitespace-free input, returning the exact
value when the string is a StrNumericLiteral denoting a (mathematically)
finite number, and `none` otherwise (including `Infinity`). -/
def numberValue (cs : List Char) : Option JsNumber :=
  match cs with
  | [] => some (JsNumber.ofInt 0)
  | '0' :: x :: rest =>
    if x == 'x' || x == 'X' then radixValue 16 rest
    else if x == 'o' || x == 'O' then radixValue 8 rest
    else if x == 'b' || x == 'B' then radixValue 2 rest
    else decFullValue cs
  | _ => decFullValue cs

/-- IEEE doubles overflow to `Infinity` from `2^1024 - 2^970` upward
(round-to-nearest-even threshold); this is the one piece of IEEE rounding the
embedding keeps, because `isFinite(Number(part))` observes it.  Written as a
literal so that evaluation never exponentiates; `overflowThreshold_eq`
certifies the value. -/
def overflowThreshold : ℤ := 179769313486231580793728971405303415079934132710037826936173778980444968292764750946649017977587207096330286416692887910946555547851940402630657488671505820681908902000708383676273854845817711531764475730270069855571366959622842914819860834936475292719074168444365510704342711559699508093042880177904174497792

/-- Model of `isFinite(Number(part))` for whitespace-free input. -/
def numberIsFinite (cs : List Char) : Bool :=
  match numberValue cs with
  | some q => decide (q.num.natAbs < (overflowThreshold * (q.den : ℤ)).toNat)
  | none => false

/-! ### `RangeGenerator.values` -/

/-- The values of `new RangeGenerator(start, end, step, includeEnd)`, i.e.
the loop `for (let i = start; i <= end; i += step) yield i` followed by the
conditional extra `yield end`.  Repeated addition is exact here, so the
`k`-th loop value is `start + step * k` and the loop runs while that value
is `<= end`.  For `start <= end` and `step <= 0` the JavaScript loop never
terminates; that divergent case is modelled as yielding nothing (no claim
depends on it). -/
def rangeValues (s e st : JsNumber) (includeEnd : Bool) : List JsNumber :=
  if s.le e ∧ st.le (JsNumber.ofInt 0) then []
  else
    let q := (e.sub s).div st
    let main : List JsNumber :=
      if s.le e then
        (List.range (q.floor.toNat + 1)).map (fun k => s.add (st.mul (JsNumber.ofNat k)))
      else []
    let lastReg := s.add (st.mul (JsNumber.ofInt q.floor))
    if includeEnd = true ∧ ¬ (jsRem (e.sub s) st).num = 0 ∧ lastReg.lt e then
      main ++ [e]
    else main

/-! ### Tokenizer (`subHelper`) -/

/-- Fuel-driven scanner equivalent to repeatedly matching the regex
`patternStart([^patternEnd]+)patternEnd` left to right: at each position, a
start delimiter followed by a nonempty run of non-end characters and then
the end delimiter is a placeholder; any character not part of a match
(including an unmatched start delimiter) joins the current literal segment.
Returns `(patterns, stringParts)`. -/
def scanAux (ps pe : Char) : ℕ → List Char → List (List Char) × List (List Char)
  | _, [] => ([], [[]])
  | 0, _ :: _ => ([], [[]])
  | fuel + 1, c :: rest =>
    if c == ps then
      match rest.dropWhile (fun x => !(x == pe)), rest.takeWhile (fun x => !(x == pe)) with
      | _ :: rest2, a :: content =>
        let r := scanAux ps pe fuel rest2
        ((a :: content) :: r.1, [] :: r.2)
      | _, _ =>
        let r := scanAux ps pe fuel rest
        match r.2 with
        | sg :: t => (r.1, (c :: sg) :: t)
        | [] => (r.1, [[c]])
    else
      let r := scanAux ps pe fuel rest
      match r.2 with
      | sg :: t => (r.1, (c :: sg) :: t)
      | [] => (r.1, [[c]])

/-- Model of `subHelper(template, {patternStart, patternEnd})`. -/
def subHelper (ps pe : Char) (template : List Char) : List (List Char) × List (List Char) :=
  scanAux ps pe template.length template

/-! ### Classification -/

/-- Configuration record shared by `parse`, `count` and `choose`. -/
structure Config where
  patternStart : Char
  patternEnd : Char
  separatorRange : Char
  separatorChoices : Char
  backReferenceMarker : Char

def defaultConfig : Config := ⟨'\x7b', '\x7d', ',', '|', '$'⟩

/-- The back-reference test shared by `parse`, `count` and `choose`:
`backRefMatch = pattern.match(new RegExp("\\<marker>(\\d+)"))`, classified as
a back-reference iff `backRefMatch && backRefMatch[0] === pattern &&
pattern.trim() === backRefMatch[0]`.  The first regex match equals the whole
pattern exactly when the pattern is the marker followed by one or more
digits and nothing else; the `trim` conjunct is kept as in the source.
Returns `parseInt(match[1], 10)` in that case. -/
def backRefIndex (marker : Char) (pattern : List Char) : Option ℕ :=
  match pattern with
  | c :: rest =>
    if c == marker && !rest.isEmpty && rest.all Char.isDigit && jsTrim pattern == pattern
    then some (digitsToNat rest) else none
  | [] => none

/-- Model of `isRangePattern(pattern, separator)`. -/
def isRangePattern (pattern : List Char) (sep : Char) : Bool :=
  let trimmed := stripTrailingRun sep (removeWhitespace pattern)
  if trimmed.any (· == sep) then
    let parts := splitOnChar sep trimmed
    decide (2 ≤ parts.length) && decide (parts.length ≤ 3) &&
      parts.all (fun part => !part.isEmpty && parseFloatDefined part && numberIsFinite part)
  else false

/-- Model of `parseRangePattern(pattern, separator)`; `parseFloat` cannot be
NaN on the parts this is applied to (guarded by `isRangePattern`), so the
`getD` defaults are unreachable there. -/
def parseRangePattern (pattern : List Char) (sep : Char) : JsNumber × JsNumber × JsNumber :=
  let parts := (splitOnChar sep (stripTrailingRun sep (removeWhitespace pattern))).map
    (fun p => (jsParseFloat p).getD (JsNumber.ofInt 0))
  (parts.getD 0 (JsNumber.ofInt 0), parts.getD 1 (JsNumber.ofInt 0),
    if 2 < parts.length then parts.getD 2 (JsNumber.ofInt 1) else JsNumber.ofInt 1)

/-! ### Values and generators -/

/-- A JavaScript value appearing in a combination: a number (from a range)
or a string (from a choice list or the literal fallback). -/
inductive JsVal where
  | num (q : JsNumber)
  | str (s : List Char)
deriving DecidableEq

def natDigits (n : ℕ) : List Char := Nat.toDigits 10 n

def intChars (i : ℤ) : List Char :=
  if i < 0 then '-' :: natDigits i.natAbs else natDigits i.natAbs

/-- Rendering by Number.toString for the values reachable here: integers in decimal,
other decimal-denominator fractions in positional decimal notation (the
exponent-notation thresholds of JavaScript, at `1e21` and `1e-7`, are not
modelled; no claim evaluates such values).  `k` is the least number of
fractional digits that makes the expansion exact, so there are no trailing
zeros. -/
def numChars (q : JsNumber) : List Char :=
  let d : ℤ := (q.den : ℤ)
  if d = 0 then []
  else if q.num % d = 0 then intChars (q.num / d)
  else
    match (List.range (q.den + 1)).find? (fun k => (q.num * 10 ^ k) % d == 0) with
    | some k =>
      let m := (q.num.natAbs * 10 ^ k) / q.den
      (if q.num < 0 then ['-'] else []) ++ natDigits (m / 10 ^ k) ++
        '.' :: (List.replicate (k - (natDigits (m % 10 ^ k)).length) '0' ++
          natDigits (m % 10 ^ k))
    | none => intChars q.num ++ '/' :: natDigits q.den

/-- String coercion applied when a combination value is concatenated into
the result (`result += combination[i] + ...`). -/
def JsVal.toChars : JsVal → List Char
  | .num q => numChars q
  | .str s => s

/-- The closed variant type behind the source's `Generator` class hierarchy
and plain arrays: `ChoicesGenerator`/arrays, `RangeGenerator`, and the
private `StaticGenerator`. -/
inductive Gen where
  | choices (options : List JsVal)
  | rangeGen (first last step : JsNumber) (includeEnd : Bool)
  | staticGen (v : JsVal)

/-- Values of each generator, as in the values() methods. -/
def Gen.values : Gen → List JsVal
  | .choices os => os
  | .rangeGen s e st incl => (rangeValues s e st incl).map JsVal.num
  | .staticGen v => [v]

/-! ### Cartesian product -/

/-- The recursive `generateCombinations` of the source: for each value of
the first sequence, emit it in front of every combination of the rest, so
the leftmost sequence varies slowest and the rightmost fastest. -/
def generateCombinations {α : Type} : List (List α) → List (List α)
  | [] => [[]]
  | vs :: rest => vs.flatMap (fun v => (generateCombinations rest).map (v :: ·))

/-- Model of cartesianProduct(generators) with the source's explicit special cases
for zero and one generator. -/
def cartesianProduct {α : Type} (gens : List (List α)) : List (List α) :=
  match gens with
  | [] => [[]]
  | [g] => g.map (fun v => [v])
  | gs => generateCombinations gs

/-! ### Assembly and `compile` -/

/-- Assembly `result = strings[0]; for i: result += values[i] + strings[i+1]`.
Call sites always pass one more string part than values. -/
def assemble : List (List Char) → List (List Char) → List Char
  | [], _ => []
  | s :: _, [] => s
  | s :: srest, v :: vrest => s ++ v ++ assemble srest vrest

/-- Model of the tagged-template entry point `compile`: the interpolated
expressions have already been dispatched to `Gen` (a `Generator` instance or
array is kept; anything else becomes a `StaticGenerator`). -/
def compile (strings : List String) (exprs : List Gen) : List String :=
  (cartesianProduct (exprs.map Gen.values)).map
    (fun combo => String.mk (assemble (strings.map String.data) (combo.map JsVal.toChars)))

/-! ### Back-reference resolution -/

/-- Patterns whose back-reference test fails, in template order (the
`backReferences[i] === null` positions used by all three entry points). -/
def actualPatterns (marker : Char) (patterns : List (List Char)) : List (List Char) :=
  patterns.filter (fun p => (backRefIndex marker p).isNone)

/-- The generator built for one non-back-reference pattern in `parse` and
`choose`: a range pattern expands through `range(start, end, step)`
(with `includeEnd` defaulted to `true`), anything else splits by the choice
separator with whitespace preserved. -/
def patternGen (cfg : Config) (pattern : List Char) : List JsVal :=
  if isRangePattern pattern cfg.separatorRange then
    let r := parseRangePattern pattern cfg.separatorRange
    (rangeValues r.1 r.2.1 r.2.2 true).map JsVal.num
  else
    (splitOnChar cfg.separatorChoices pattern).map JsVal.str

/-- The per-pattern factor of `count`: range length, or number of options. -/
def patternCount (cfg : Config) (pattern : List Char) : ℕ :=
  if isRangePattern pattern cfg.separatorRange then
    let r := parseRangePattern pattern cfg.separatorRange
    (rangeValues r.1 r.2.1 r.2.2 true).length
  else
    (splitOnChar cfg.separatorChoices pattern).length

/-- State of `resolvedCombination` after its first filling pass: the classification
of each placeholder paired with the value placed there (the combination
values distributed over the non-back-reference positions; back-reference
slots hold the dummy left by their placeholder generator). -/
def placeActuals : List (Option ℕ) → List JsVal → List (Option ℕ × JsVal)
  | [], _ => []
  | none :: rest, v :: vs => (none, v) :: placeActuals rest vs
  | none :: rest, [] => (none, JsVal.str []) :: placeActuals rest []
  | some r :: rest, vs => (some r, JsVal.str []) :: placeActuals rest vs

/-- The scan `for (j ...) if (backReferences[j] === null) { if (count === refIndex)
take resolved[j]; count++ }`: the value at the `r`-th actual position of the
scanned prefix, if it exists. -/
def findBackRefValue : List (Option ℕ × JsVal) → ℕ → Option JsVal
  | [], _ => none
  | (none, v) :: rest, r => if r = 0 then some v else findBackRefValue rest (r - 1)
  | (some _, _) :: rest, r => findBackRefValue rest r

/-- The literal fallback for an unresolved back-reference:
`` `{${backReferenceMarker}${refIndex}}` `` — the braces are hardcoded in the
source, independent of the configured delimiters. -/
def backRefLiteral (marker : Char) (r : ℕ) : JsVal :=
  JsVal.str ('\x7b' :: marker :: (natDigits r ++ ['\x7d']))

/-- The value resolved for one placeholder slot: an actual placeholder keeps
its placed value; a back-reference takes the value of the `refIndex`-th
actual placeholder of the scanned region, or the literal fallback when the
scan finds none (`refValue === null`). -/
def resolveEntry (marker : Char) (scanned : List (Option ℕ × JsVal)) :
    Option ℕ × JsVal → JsVal
  | (none, v) => v
  | (some r, _) =>
    match findBackRefValue scanned r with
    | some v => v
    | none => backRefLiteral marker r

/-- Resolution pass of `parse`: each back-reference at position `i` scans
only the positions `j < i` (the already-processed prefix). -/
def resolveAux (marker : Char) :
    List (Option ℕ × JsVal) → List (Option ℕ × JsVal) → List JsVal
  | _, [] => []
  | pre, pv :: rest => resolveEntry marker pre pv :: resolveAux marker (pre ++ [pv]) rest

/-- One resolved combination of `parse`. -/
def resolveCombination (marker : Char) (backRefs : List (Option ℕ))
    (combo : List JsVal) : List JsVal :=
  resolveAux marker [] (placeActuals backRefs combo)

/-- Resolution pass of `choose`: its back-reference scan runs over the whole
pattern list (`for (j = 0; j < patterns.length; j++)`), not only the prefix
before the current position. -/
def resolveChooseCombination (marker : Char) (backRefs : List (Option ℕ))
    (combo : List JsVal) : List JsVal :=
  let placed := placeActuals backRefs combo
  placed.map (resolveEntry marker placed)

/-! ### Entry points `parse`, `count`, `choose` -/

/-- Version of `parse` on character lists. -/
def parseChars (cfg : Config) (template : List Char) : List (List Char) :=
  let pr := subHelper cfg.patternStart cfg.patternEnd template
  let backRefs := pr.1.map (backRefIndex cfg.backReferenceMarker)
  let actualGens := (actualPatterns cfg.backReferenceMarker pr.1).map (patternGen cfg)
  (cartesianProduct actualGens).map (fun combo =>
    assemble pr.2 ((resolveCombination cfg.backReferenceMarker backRefs combo).map JsVal.toChars))

/-- Model of `parse(template, config)`: the full enumeration, in order. -/
def parse (template : String) (cfg : Config) : List String :=
  (parseChars cfg template.data).map String.mk

/-- Model of `count(template, config)`: the running product
`totalCount *= factor` over the non-back-reference patterns. -/
def count (template : String) (cfg : Config) : ℕ :=
  let pr := subHelper cfg.patternStart cfg.patternEnd template.data
  (actualPatterns cfg.backReferenceMarker pr.1).foldl
    (fun acc p => acc * patternCount cfg p) 1

/-- Version of `choose` on character lists.  `idxs` are the explicit selection indices
(one per actual placeholder, in actual order; a missing entry means
`undefined`); `rand k` models `Math.floor(Math.random() * values.length)`
for the `k`-th actual placeholder, consulted only when `idxs` has no entry
there.  An out-of-bounds explicit index selects `undefined`, which
JavaScript later concatenates as the text `"undefined"`. -/
def chooseChars (cfg : Config) (template : List Char) (idxs : List ℕ) (rand : ℕ → ℕ) :
    List Char :=
  let pr := subHelper cfg.patternStart cfg.patternEnd template
  let backRefs := pr.1.map (backRefIndex cfg.backReferenceMarker)
  let actualGens := (actualPatterns cfg.backReferenceMarker pr.1).map (patternGen cfg)
  let selected := actualGens.enum.map (fun kv =>
    kv.2.getD (match idxs[kv.1]? with | some ix => ix | none => rand kv.1)
      (JsVal.str "undefined".data))
  assemble pr.2
    ((resolveChooseCombination cfg.backReferenceMarker backRefs selected).map JsVal.toChars)

/-- Model of `choose(template, config)(...idxs)`. -/
def choose (template : String) (cfg : Config) (idxs : List ℕ) (rand : ℕ → ℕ) : String :=
  String.mk (chooseChars cfg template.data idxs rand)

/-! ### Derived notions used by the claims -/

/-- Number of actual (non-back-reference) placeholders. -/
def countActuals (backRefs : List (Option ℕ)) : ℕ :=
  (backRefs.filter Option.isNone).length

/-- Number of actual placeholders strictly before position `i`. -/
def countActualsBefore (backRefs : List (Option ℕ)) (i : ℕ) : ℕ :=
  countActuals (backRefs.take i)

/-- Template position of the `r`-th actual placeholder, if it exists. -/
def actualPos : List (Option ℕ) → ℕ → Option ℕ
  | [], _ => none
  | none :: _, 0 => some 0
  | none :: rest, r + 1 => (actualPos rest r).map (· + 1)
  | some _ :: rest, r => (actualPos rest r).map (· + 1)

/-- The classification list (back-reference index or `none`) of a template's
placeholders, as computed inside `parse`, `count` and `choose`. -/
def templateBackRefs (cfg : Config) (template : String) : List (Option ℕ) :=
  ((subHelper cfg.patternStart cfg.patternEnd template.data).1).map
    (backRefIndex cfg.backReferenceMarker)

/-- The value sequences of a template's actual placeholders, in template
order, as computed inside `parse` and `choose`. -/
def templateActualGens (cfg : Config) (template : String) : List (List JsVal) :=
  (actualPatterns cfg.backReferenceMarker
    (subHelper cfg.patternStart cfg.patternEnd template.data).1).map (patternGen cfg)

/-- Rebuild a template from tokenizer output by interleaving literal
segments with delimited patterns. -/
def rebuild (ps pe : Char) : List (List Char) → List (List Char) → List Char
  | _, [] => []
  | [], seg :: _ => seg
  | p :: pats, seg :: segs => seg ++ ps :: (p ++ pe :: rebuild ps pe pats segs)

/-- Odometer position encoded by per-placeholder indices `idxs` against
cardinalities `lens` (rightmost varies fastest). -/
def enumIndexOf : List ℕ → List ℕ → ℕ
  | _ :: ls, i :: is => i * ls.prod + enumIndexOf ls is
  | _, _ => 0

/-- The back-reference shape the specification describes: the
whitespace-trimmed content is exactly the marker followed by one or more
digits.  (Stated from the claim's words, to compare with `backRefIndex`.) -/
def specIsBackRef (marker : Char) (pattern : List Char) : Bool :=
  match jsTrim pattern with
  | c :: rest => c == marker && !rest.isEmpty && rest.all Char.isDigit
  | [] => false

/-- A "finite decimal number (optional sign and fractional part only)" as
the claim words it: optional sign, digits with at most one decimal point,
and at least one digit; no exponent, no radix prefixes.  (Stated from the
claim's words, to compare with the source's numeric check.) -/
def specDecimalCore (p : List Char) : Bool :=
  let ip := p.takeWhile Char.isDigit
  match p.dropWhile Char.isDigit with
  | [] => !ip.isEmpty
  | '.' :: r2 => (!ip.isEmpty || !r2.isEmpty) && r2.all Char.isDigit
  | _ => false

/-- Signed variant of `specDecimalCore`. -/
def specDecimal (p : List Char) : Bool :=
  match p with
  | '+' :: r => specDecimalCore r
  | '-' :: r => specDecimalCore r
  | _ => specDecimalCore p

/-! ## Lemmas about the cartesian product -/

set_option maxRecDepth 4000

theorem overflowThreshold_eq : overflowThreshold = 2 ^ 1024 - 2 ^ 970 := by
  have h1 : ((2:ℤ) ^ (256:ℕ)) ^ (4:ℕ) = (2:ℤ) ^ (1024:ℕ) := by
    rw [← pow_mul]
  have h2 : ((2:ℤ) ^ (194:ℕ)) ^ (5:ℕ) = (2:ℤ) ^ (970:ℕ) := by
    rw [← pow_mul]
  rw [← h1, ← h2]
  norm_num [overflowThreshold]

theorem generateCombinations_nil {α : Type} :
    generateCombinations ([] : List (List α)) = [[]] := rfl

theorem generateCombinations_cons {α : Type} (vs : List α) (rest : List (List α)) :
    generateCombinations (vs :: rest) =
      vs.flatMap (fun v => (generateCombinations rest).map (v :: ·)) := rfl

theorem sum_map_constant {α : Type} (c : ℕ) :
    ∀ l : List α, (l.map (fun _ => c)).sum = l.length * c := by
  intro l
  induction l with
  | nil => simp
  | cons x l ih => simp [ih, Nat.succ_mul, Nat.add_comm]

theorem generateCombinations_length {α : Type} :
    ∀ ls : List (List α), (generateCombinations ls).length = (ls.map List.length).prod := by
  intro ls
  induction ls with
  | nil => rfl
  | cons vs rest ih =>
    rw [generateCombinations_cons, List.length_flatMap]
    have h : List.map (List.length ∘ fun v => (generateCombinations rest).map (v :: ·)) vs =
        List.map (fun _ => (List.map List.length rest).prod) vs := by
      simp [Function.comp_def, ih]
    rw [h, sum_map_constant, List.map_cons, List.prod_cons]

theorem flatMap_singleton_eq_map {α β : Type} (f : α → β) :
    ∀ l : List α, (l.flatMap fun x => [f x]) = l.map f := by
  intro l
  induction l with
  | nil => rfl
  | cons x l ih => simp only [List.flatMap_cons, ih, List.map_cons, List.singleton_append]

theorem cartesianProduct_eq {α : Type} :
    ∀ ls : List (List α), cartesianProduct ls = generateCombinations ls
  | [] => rfl
  | [g] => by
    show g.map (fun v => [v]) = generateCombinations [g]
    rw [← flatMap_singleton_eq_map (fun v => [v]) g]
    rfl
  | a :: b :: rest => rfl

theorem length_of_mem_generateCombinations {α : Type} :
    ∀ (ls : List (List α)) (c : List α), c ∈ generateCombinations ls → c.length = ls.length := by
  intro ls
  induction ls with
  | nil =>
    intro c hc
    simp [generateCombinations_nil] at hc
    simp [hc]
  | cons vs rest ih =>
    intro c hc
    rw [generateCombinations_cons] at hc
    simp only [List.mem_flatMap, List.mem_map] at hc
    obtain ⟨v, _, c', hc', rfl⟩ := hc
    simp [ih c' hc']

theorem getElem?_flatMap_const {α β : Type} (f : α → List β) (B : ℕ) :
    ∀ (l : List α) (i r : ℕ) (a : α), (∀ x ∈ l, (f x).length = B) → r < B →
      l[i]? = some a → (l.flatMap f)[i * B + r]? = (f a)[r]? := by
  intro l
  induction l with
  | nil => intro i r a _ _ h; simp at h
  | cons x l ih =>
    intro i r a hB hr hget
    have hfx : (f x).length = B := hB x (by simp)
    cases i with
    | zero =>
      rw [List.getElem?_cons_zero] at hget
      injection hget with hxa
      subst hxa
      rw [List.flatMap_cons, Nat.zero_mul, Nat.zero_add,
        List.getElem?_append_left (by omega)]
    | succ i =>
      rw [List.getElem?_cons_succ] at hget
      have hmul : (i + 1) * B = i * B + B := by ring
      rw [List.flatMap_cons, List.getElem?_append_right (by omega)]
      have harith : (i + 1) * B + r - (f x).length = i * B + r := by omega
      rw [harith]
      exact ih i r a (fun y hy => hB y (by simp [hy])) hr hget

theorem enumIndexOf_lt_prod :
    ∀ (ls : List ℕ) (idxs : List ℕ), idxs.length = ls.length →
      (∀ p ∈ ls.zip idxs, p.2 < p.1) → enumIndexOf ls idxs < ls.prod := by
  intro ls
  induction ls with
  | nil =>
    intro idxs h _
    match idxs with
    | [] => simp [enumIndexOf]
    | _ :: _ => simp at h
  | cons n ls ih =>
    intro idxs hlen hb
    match idxs with
    | [] => simp at hlen
    | i :: is =>
      simp at hlen
      have hi : i < n := hb (n, i) (by simp)
      have hrest : enumIndexOf ls is < ls.prod :=
        ih is hlen (fun p hp => hb p (by simp [hp]))
      show i * ls.prod + enumIndexOf ls is < n * ls.prod
      calc i * ls.prod + enumIndexOf ls is < i * ls.prod + ls.prod := by omega
      _ = (i + 1) * ls.prod := by ring
      _ ≤ n * ls.prod := Nat.mul_le_mul_right _ (by omega)

theorem generateCombinations_getElem? {α : Type} (d : α) :
    ∀ (ls : List (List α)) (idxs : List ℕ), idxs.length = ls.length →
      (∀ p ∈ ls.zip idxs, p.2 < p.1.length) →
      (generateCombinations ls)[enumIndexOf (ls.map List.length) idxs]? =
        some (List.zipWith (fun l i => l.getD i d) ls idxs) := by
  intro ls
  induction ls with
  | nil =>
    intro idxs hlen _
    match idxs with
    | [] => rfl
    | _ :: _ => simp at hlen
  | cons vs rest ih =>
    intro idxs hlen hb
    match idxs with
    | [] => simp at hlen
    | i :: is =>
      simp at hlen
      have hi : i < vs.length := hb (vs, i) (by simp)
      have hbrest : ∀ p ∈ rest.zip is, p.2 < p.1.length :=
        fun p hp => hb p (by simp [hp])
      have hlt : enumIndexOf (rest.map List.length) is < (rest.map List.length).prod := by
        apply enumIndexOf_lt_prod
        · simpa using hlen
        · intro p hp
          simp only [List.zip_map_left, List.mem_map] at hp
          obtain ⟨q, hq, rfl⟩ := hp
          exact hbrest q hq
      have hidx : enumIndexOf ((vs :: rest).map List.length) (i :: is) =
          i * (generateCombinations rest).length + enumIndexOf (rest.map List.length) is := by
        rw [generateCombinations_length]; rfl
      rw [hidx, generateCombinations_cons]
      rw [getElem?_flatMap_const _ _ vs i _ (vs.getD i d)
        (fun x _ => by simp [generateCombinations_length])
        (by rw [generateCombinations_length]; exact hlt)
        (by rw [List.getD_eq_getElem?_getD, List.getElem?_eq_getElem hi]; rfl)]
      rw [List.getElem?_map, ih is hlen hbrest]
      rfl

theorem generateCombinations_insertIdx {α : Type} (v : α) :
    ∀ (ls1 ls2 : List (List α)),
      generateCombinations (ls1 ++ [v] :: ls2) =
        (generateCombinations (ls1 ++ ls2)).map (List.insertIdx ls1.length v) := by
  intro ls1
  induction ls1 with
  | nil =>
    intro ls2
    simp [generateCombinations_cons, List.map_map]
  | cons l ls1 ih =>
    intro ls2
    simp only [List.cons_append, generateCombinations_cons, ih, List.map_flatMap,
      List.map_map, List.length_cons]
    refine congrArg (fun f => l.flatMap f) (funext fun x => ?_)
    refine congrArg (fun g => List.map g (generateCombinations (ls1 ++ ls2)))
      (funext fun c => ?_)
    simp [Function.comp_def, List.insertIdx_succ_cons]

theorem list_eq_map_range_getD {α : Type} (d : α) :
    ∀ l : List α, l = (List.range l.length).map (fun i => l.getD i d) := by
  intro l
  induction l with
  | nil => rfl
  | cons x l ih =>
    rw [List.length_cons, List.range_succ_eq_map, List.map_cons, List.map_map]
    have h : ((fun i => (x :: l).getD i d) ∘ Nat.succ) = fun i => l.getD i d := by
      funext i; rfl
    rw [h, ← ih]
    rfl

theorem flatMap_map_eq {α β γ : Type} (f : α → β) (g : β → List γ) :
    ∀ l : List α, (l.map f).flatMap g = l.flatMap (fun x => g (f x)) := by
  intro l
  induction l with
  | nil => rfl
  | cons x l ih => simp only [List.map_cons, List.flatMap_cons, ih]

theorem flatMap_eq_range {α β : Type} (d : α) (l : List α) (F : α → List β) :
    l.flatMap F = (List.range l.length).flatMap (fun i => F (l.getD i d)) := by
  conv_lhs => rw [list_eq_map_range_getD d l]
  rw [flatMap_map_eq]

theorem generateCombinations_eq_map_indices {α : Type} (d : α) :
    ∀ ls : List (List α),
      generateCombinations ls =
        (generateCombinations (ls.map (fun l => List.range l.length))).map
          (List.zipWith (fun l i => l.getD i d) ls) := by
  intro ls
  induction ls with
  | nil => rfl
  | cons vs rest ih =>
    rw [List.map_cons, generateCombinations_cons, generateCombinations_cons,
      List.map_flatMap, ih, flatMap_eq_range d vs]
    refine congrArg (fun F => (List.range vs.length).flatMap F) (funext fun i => ?_)
    rw [List.map_map, List.map_map]
    refine congrArg (fun g => List.map g _) (funext fun ix => ?_)
    simp [Function.comp_def]

theorem pairwise_lt_lex_generateCombinations :
    ∀ lens : List ℕ,
      (generateCombinations (lens.map List.range)).Pairwise (List.Lex (· < ·)) := by
  intro lens
  induction lens with
  | nil => simp [generateCombinations_nil]
  | cons n lens ih =>
    rw [List.map_cons, generateCombinations_cons, List.flatMap_def]
    apply List.pairwise_flatten.mpr
    constructor
    · intro l hl
      rw [List.mem_map] at hl
      obtain ⟨i, _, rfl⟩ := hl
      exact ih.map _ (fun a b hab => List.Lex.cons hab)
    · refine (List.pairwise_lt_range n).map _ ?_
      intro i j hij x hx y hy
      rw [List.mem_map] at hx hy
      obtain ⟨c, _, rfl⟩ := hx
      obtain ⟨c', _, rfl⟩ := hy
      exact List.Lex.rel hij

theorem foldl_mul_eq_prod {α : Type} (f : α → ℕ) :
    ∀ (l : List α) (n : ℕ), l.foldl (fun acc p => acc * f p) n = n * (l.map f).prod := by
  intro l
  induction l with
  | nil => intro n; simp
  | cons x l ih =>
    intro n
    simp only [List.foldl_cons, ih, List.map_cons, List.prod_cons, Nat.mul_assoc]

theorem patternGen_length (cfg : Config) (p : List Char) :
    (patternGen cfg p).length = patternCount cfg p := by
  unfold patternGen patternCount
  by_cases h : isRangePattern p cfg.separatorRange
  · simp [h]
  · simp [h]

/-! ## Claim theorems (C1, C4, C10) -/

/-- Claim C1: for every template string and configuration, `count` returns
exactly the number of strings yielded by the full enumeration `parse`; in
particular `count("Count: {1,5}") = 5` and
`count("Count: {1,5} {A|B|C}") = 15`. -/
theorem claim_count_equals_enumeration :
    (∀ (template : String) (cfg : Config), (parse template cfg).length = count template cfg)
    ∧ count "Count: \x7b1,5\x7d" defaultConfig = 5
    ∧ count "Count: \x7b1,5\x7d \x7bA|B|C\x7d" defaultConfig = 15 := by
  refine ⟨?_, by decide, by decide⟩
  intro template cfg
  simp only [parse, parseChars, count]
  rw [List.length_map, List.length_map, cartesianProduct_eq, generateCombinations_length,
    foldl_mul_eq_prod, one_mul, List.map_map]
  refine congrArg List.prod ?_
  refine congrArg (fun f => List.map f _) (funext fun p => ?_)
  exact patternGen_length cfg p

/-- Claim C4: the cartesian enumeration used by `compile` and `parse` emits
combinations in odometer order: the list of emitted tuples is the image,
under per-position selection, of the list of per-position index tuples, and
that index-tuple list is strictly increasing in lexicographic order
(rightmost position varying fastest); in particular `compile` over
`["A","B"]` and `["1","2","3"]` joined as `"X - Y"` yields exactly
`A - 1, A - 2, A - 3, B - 1, B - 2, B - 3` in that order. -/
theorem claim_cartesian_odometer_order :
    (∀ (α : Type) (d : α) (ls : List (List α)),
      cartesianProduct ls =
        (generateCombinations (ls.map (fun l => List.range l.length))).map
          (List.zipWith (fun l i => l.getD i d) ls))
    ∧ (∀ lens : List ℕ,
        (generateCombinations (lens.map List.range)).Pairwise (List.Lex (· < ·)))
    ∧ compile ["", " - ", ""]
        [.choices [.str "A".data, .str "B".data],
         .choices [.str "1".data, .str "2".data, .str "3".data]] =
        ["A - 1", "A - 2", "A - 3", "B - 1", "B - 2", "B - 3"] :=
  ⟨fun _ d ls => (cartesianProduct_eq ls).trans (generateCombinations_eq_map_indices d ls),
    pairwise_lt_lex_generateCombinations, by decide⟩

/-- Claim C10: in `compile`, an interpolated expression that is neither an
array nor a `Generator` (a `StaticGenerator`) has exactly one value — so it
multiplies the output count by 1 — and that value is inserted verbatim at
its position in every output string. -/
theorem claim_static_expression_spec :
    (∀ v : JsVal, Gen.values (.staticGen v) = [v])
    ∧ (∀ (strings : List String) (gs1 gs2 : List Gen) (v : JsVal),
        compile strings (gs1 ++ .staticGen v :: gs2) =
          (generateCombinations ((gs1 ++ gs2).map Gen.values)).map
            (fun c => String.mk (assemble (strings.map String.data)
              ((c.insertIdx gs1.length v).map JsVal.toChars))))
    ∧ (∀ (strings : List String) (gs1 gs2 : List Gen) (v : JsVal),
        (compile strings (gs1 ++ .staticGen v :: gs2)).length =
          ((gs1 ++ gs2).map (fun g => (Gen.values g).length)).prod)
    ∧ compile ["", "-", ""]
        [.choices [.str "A".data, .str "B".data], .staticGen (.str "X".data)] =
        ["A-X", "B-X"] := by
  have hmain : ∀ (strings : List String) (gs1 gs2 : List Gen) (v : JsVal),
      compile strings (gs1 ++ .staticGen v :: gs2) =
        (generateCombinations ((gs1 ++ gs2).map Gen.values)).map
          (fun c => String.mk (assemble (strings.map String.data)
            ((c.insertIdx gs1.length v).map JsVal.toChars))) := by
    intro strings gs1 gs2 v
    simp only [compile, List.map_append, List.map_cons, cartesianProduct_eq]
    have h1 : Gen.values (.staticGen v) = [v] := rfl
    rw [h1]
    have h2 := generateCombinations_insertIdx v (gs1.map Gen.values) (gs2.map Gen.values)
    rw [List.length_map] at h2
    rw [← List.map_append] at h2
    rw [h2, List.map_map]
    simp [Function.comp_def, List.map_append]
  refine ⟨fun v => rfl, hmain, ?_, by decide⟩
  intro strings gs1 gs2 v
  rw [hmain, List.length_map, generateCombinations_length, List.map_map]
  rfl

/-! ## Lemmas about back-reference resolution -/

theorem countActualsBefore_zero (br : List (Option ℕ)) : countActualsBefore br 0 = 0 := rfl

theorem countActuals_cons_none (rest : List (Option ℕ)) :
    countActuals (none :: rest) = countActuals rest + 1 := by
  simp [countActuals, List.filter_cons]

theorem countActuals_cons_some (r : ℕ) (rest : List (Option ℕ)) :
    countActuals (some r :: rest) = countActuals rest := by
  simp [countActuals, List.filter_cons]

theorem countActualsBefore_succ (o : Option ℕ) (rest : List (Option ℕ)) (i : ℕ) :
    countActualsBefore (o :: rest) (i + 1) =
      countActualsBefore rest i + (if o.isNone then 1 else 0) := by
  cases o with
  | none =>
    simp [countActualsBefore, List.take_succ_cons, countActuals_cons_none]
  | some r =>
    simp [countActualsBefore, List.take_succ_cons, countActuals_cons_some]

theorem placeActuals_length :
    ∀ (br : List (Option ℕ)) (combo : List JsVal),
      (placeActuals br combo).length = br.length := by
  intro br
  induction br with
  | nil => intro combo; rfl
  | cons o rest ih =>
    intro combo
    cases o with
    | none =>
      cases combo with
      | nil => simp [placeActuals, ih]
      | cons v vs => simp [placeActuals, ih]
    | some r => simp [placeActuals, ih]

theorem placeActuals_take :
    ∀ (br : List (Option ℕ)) (combo : List JsVal) (i : ℕ),
      (placeActuals br combo).take i = placeActuals (br.take i) combo := by
  intro br
  induction br with
  | nil => intro combo i; simp [placeActuals]
  | cons o rest ih =>
    intro combo i
    cases i with
    | zero => simp [placeActuals]
    | succ i =>
      cases o with
      | none =>
        cases combo with
        | nil => simp [placeActuals, List.take_succ_cons, ih]
        | cons v vs => simp [placeActuals, List.take_succ_cons, ih]
      | some r => simp [placeActuals, List.take_succ_cons, ih]

theorem placeActuals_getElem?_some :
    ∀ (br : List (Option ℕ)) (combo : List JsVal) (i : ℕ) (r : ℕ),
      br[i]? = some (some r) →
      (placeActuals br combo)[i]? = some (some r, JsVal.str []) := by
  intro br
  induction br with
  | nil => intro combo i r h; simp at h
  | cons o rest ih =>
    intro combo i r h
    cases i with
    | zero =>
      simp at h
      subst h
      cases combo <;> simp [placeActuals]
    | succ i =>
      simp at h
      cases o with
      | none =>
        cases combo with
        | nil => simpa [placeActuals] using ih [] i r h
        | cons v vs => simpa [placeActuals] using ih vs i r h
      | some r' => simpa [placeActuals] using ih combo i r h

theorem placeActuals_getElem?_none :
    ∀ (br : List (Option ℕ)) (combo : List JsVal) (i : ℕ),
      br[i]? = some none →
      (placeActuals br combo)[i]? =
        some (none, combo.getD (countActualsBefore br i) (JsVal.str [])) := by
  intro br
  induction br with
  | nil => intro combo i h; simp at h
  | cons o rest ih =>
    intro combo i h
    cases i with
    | zero =>
      simp at h
      subst h
      cases combo with
      | nil => simp [placeActuals, countActualsBefore_zero]
      | cons v vs => simp [placeActuals, countActualsBefore_zero]
    | succ i =>
      simp at h
      cases o with
      | none =>
        cases combo with
        | nil =>
          have hrec := ih [] i h
          simp only [placeActuals, List.getElem?_cons_succ, countActualsBefore_succ]
          simpa using hrec
        | cons v vs =>
          have hrec := ih vs i h
          simp only [placeActuals, List.getElem?_cons_succ, countActualsBefore_succ]
          simpa [List.getD_cons_succ] using hrec
      | some r' =>
        have hrec := ih combo i h
        simp only [placeActuals, List.getElem?_cons_succ, countActualsBefore_succ]
        simpa using hrec

theorem findBackRefValue_placeActuals :
    ∀ (br : List (Option ℕ)) (combo : List JsVal) (r : ℕ),
      findBackRefValue (placeActuals br combo) r =
        if r < countActuals br then some (combo.getD r (JsVal.str [])) else none := by
  intro br
  induction br with
  | nil => intro combo r; simp [placeActuals, findBackRefValue, countActuals]
  | cons o rest ih =>
    intro combo r
    cases o with
    | none =>
      cases combo with
      | nil =>
        cases r with
        | zero => simp [placeActuals, findBackRefValue, countActuals_cons_none]
        | succ r =>
          simp only [placeActuals, findBackRefValue, countActuals_cons_none, ih,
            Nat.succ_ne_zero, if_false, Nat.succ_sub_one]
          simp [Nat.succ_lt_succ_iff]
      | cons v vs =>
        cases r with
        | zero => simp [placeActuals, findBackRefValue, countActuals_cons_none]
        | succ r =>
          simp only [placeActuals, findBackRefValue, countActuals_cons_none, ih,
            Nat.succ_ne_zero, if_false, Nat.succ_sub_one]
          simp [Nat.succ_lt_succ_iff, List.getD_cons_succ]
    | some r' =>
      simp [placeActuals, findBackRefValue, ih, countActuals_cons_some]

theorem resolveAux_getElem? (marker : Char) :
    ∀ (rem pre : List (Option ℕ × JsVal)) (i : ℕ),
      (resolveAux marker pre rem)[i]? =
        (rem[i]?).map (resolveEntry marker (pre ++ rem.take i)) := by
  intro rem
  induction rem with
  | nil => intro pre i; simp [resolveAux]
  | cons pv rest ih =>
    intro pre i
    cases i with
    | zero => simp [resolveAux]
    | succ i =>
      simp only [resolveAux, List.getElem?_cons_succ, List.take_succ_cons]
      rw [ih (pre ++ [pv]) i]
      simp [List.append_assoc]

theorem resolveCombination_getElem? (marker : Char) (br : List (Option ℕ))
    (combo : List JsVal) (i : ℕ) :
    (resolveCombination marker br combo)[i]? =
      ((placeActuals br combo)[i]?).map
        (resolveEntry marker (placeActuals (br.take i) combo)) := by
  unfold resolveCombination
  rw [resolveAux_getElem?]
  simp [placeActuals_take]

theorem resolveChoose_getElem? (marker : Char) (br : List (Option ℕ))
    (combo : List JsVal) (i : ℕ) :
    (resolveChooseCombination marker br combo)[i]? =
      ((placeActuals br combo)[i]?).map (resolveEntry marker (placeActuals br combo)) := by
  unfold resolveChooseCombination
  simp [List.getElem?_map]

theorem resolveCombination_backRef_fallback (marker : Char) (br : List (Option ℕ))
    (combo : List JsVal) (i r : ℕ)
    (hi : br[i]? = some (some r)) (hr : countActualsBefore br i ≤ r) :
    (resolveCombination marker br combo)[i]? = some (backRefLiteral marker r) := by
  rw [resolveCombination_getElem?, placeActuals_getElem?_some br combo i r hi]
  simp only [Option.map_some']
  show some (resolveEntry marker (placeActuals (br.take i) combo) (some r, JsVal.str [])) = _
  simp only [resolveEntry, findBackRefValue_placeActuals]
  rw [if_neg (by simp only [countActualsBefore] at hr; omega)]

theorem resolveCombination_backRef_value (marker : Char) (br : List (Option ℕ))
    (combo : List JsVal) (i r : ℕ)
    (hi : br[i]? = some (some r)) (hr : r < countActualsBefore br i) :
    (resolveCombination marker br combo)[i]? = some (combo.getD r (JsVal.str [])) := by
  rw [resolveCombination_getElem?, placeActuals_getElem?_some br combo i r hi]
  simp only [Option.map_some']
  show some (resolveEntry marker (placeActuals (br.take i) combo) (some r, JsVal.str [])) = _
  simp only [resolveEntry, findBackRefValue_placeActuals]
  rw [if_pos (by simp only [countActualsBefore] at hr; omega)]

theorem resolveCombination_actual (marker : Char) (br : List (Option ℕ))
    (combo : List JsVal) (i : ℕ) (hi : br[i]? = some none) :
    (resolveCombination marker br combo)[i]? =
      some (combo.getD (countActualsBefore br i) (JsVal.str [])) := by
  rw [resolveCombination_getElem?, placeActuals_getElem?_none br combo i hi]
  rfl

theorem resolveChoose_backRef_fallback (marker : Char) (br : List (Option ℕ))
    (combo : List JsVal) (i r : ℕ)
    (hi : br[i]? = some (some r)) (hr : countActuals br ≤ r) :
    (resolveChooseCombination marker br combo)[i]? = some (backRefLiteral marker r) := by
  rw [resolveChoose_getElem?, placeActuals_getElem?_some br combo i r hi]
  simp only [Option.map_some']
  show some (resolveEntry marker (placeActuals br combo) (some r, JsVal.str [])) = _
  simp only [resolveEntry, findBackRefValue_placeActuals]
  rw [if_neg (by omega)]

theorem resolveChoose_backRef_value (marker : Char) (br : List (Option ℕ))
    (combo : List JsVal) (i r : ℕ)
    (hi : br[i]? = some (some r)) (hr : r < countActuals br) :
    (resolveChooseCombination marker br combo)[i]? = some (combo.getD r (JsVal.str [])) := by
  rw [resolveChoose_getElem?, placeActuals_getElem?_some br combo i r hi]
  simp only [Option.map_some']
  show some (resolveEntry marker (placeActuals br combo) (some r, JsVal.str [])) = _
  simp only [resolveEntry, findBackRefValue_placeActuals]
  rw [if_pos hr]

theorem resolveChoose_actual (marker : Char) (br : List (Option ℕ))
    (combo : List JsVal) (i : ℕ) (hi : br[i]? = some none) :
    (resolveChooseCombination marker br combo)[i]? =
      some (combo.getD (countActualsBefore br i) (JsVal.str [])) := by
  rw [resolveChoose_getElem?, placeActuals_getElem?_none br combo i hi]
  rfl

theorem actualPos_spec :
    ∀ (br : List (Option ℕ)) (r j : ℕ), actualPos br r = some j →
      br[j]? = some none ∧ countActualsBefore br j = r := by
  intro br
  induction br with
  | nil => intro r j h; simp [actualPos] at h
  | cons o rest ih =>
    intro r j h
    cases o with
    | none =>
      cases r with
      | zero =>
        simp [actualPos] at h
        subst h
        exact ⟨by simp, rfl⟩
      | succ r =>
        simp only [actualPos, Option.map_eq_some'] at h
        obtain ⟨j', hj', rfl⟩ := h
        obtain ⟨h1, h2⟩ := ih r j' hj'
        refine ⟨by simpa using h1, ?_⟩
        rw [countActualsBefore_succ]
        simp [h2]
    | some r' =>
      simp only [actualPos, Option.map_eq_some'] at h
      obtain ⟨j', hj', rfl⟩ := h
      obtain ⟨h1, h2⟩ := ih r j' hj'
      refine ⟨by simpa using h1, ?_⟩
      rw [countActualsBefore_succ]
      simp [h2]

theorem countActualsBefore_lt_of_actual :
    ∀ (br : List (Option ℕ)) (j i : ℕ), j < i → br[j]? = some none →
      countActualsBefore br j < countActualsBefore br i := by
  intro br
  induction br with
  | nil => intro j i _ h; simp at h
  | cons o rest ih =>
    intro j i hji h
    cases j with
    | zero =>
      simp at h
      subst h
      cases i with
      | zero => omega
      | succ i =>
        rw [countActualsBefore_succ]
        simp [countActualsBefore_zero]
    | succ j =>
      cases i with
      | zero => omega
      | succ i =>
        simp at h
        have hrec := ih j i (by omega) h
        rw [countActualsBefore_succ, countActualsBefore_succ]
        omega

theorem countActualsBefore_le (br : List (Option ℕ)) (i : ℕ) :
    countActualsBefore br i ≤ countActuals br := by
  show countActuals (br.take i) ≤ countActuals br
  unfold countActuals
  conv_rhs => rw [← List.take_append_drop i br]
  rw [List.filter_append, List.length_append]
  omega

/-! ## Claim theorems (C2, C6) -/

/-- Counterexample for C2: the claim fails in two ways.  With delimiters
`<`/`>`, `parse("<$5> <a|b>")` substitutes `{$5}` (hardcoded braces), not the
configured `<$5>`.  And in `choose`, a back-reference to an actual
placeholder *after* its own position resolves to that placeholder's value
("A A"), not to the literal fallback the claim requires. -/
theorem claim_backref_literal_fallback_cex :
    parse "<$5> <a|b>" ⟨'<', '>', ',', '|', '$'⟩ = ["\x7b$5\x7d a", "\x7b$5\x7d b"] ∧
    ("\x7b$5\x7d a" : String) ≠ "<$5> a" ∧
    choose "\x7b$0\x7d \x7bA|B\x7d" defaultConfig [0] (fun _ => 0) = "A A" ∧
    ("A A" : String) ≠ "\x7b$0\x7d A" :=
  ⟨by decide, by decide, by decide, by decide⟩

/-- Claim C2 (amended): in `parse`, a back-reference whose index is not
smaller than the number of actual placeholders strictly before it resolves
to the literal text `"{" ++ marker ++ index ++ "}"` (braces hardcoded,
independent of the configured delimiters); in `choose`, whose scan covers
the whole template, the same literal is substituted exactly when the index
is not smaller than the total number of actual placeholders.  No error is
raised in either case (resolution is total by construction). -/
theorem claim_backref_literal_fallback (marker : Char) (br : List (Option ℕ))
    (combo : List JsVal) (i r : ℕ) (hi : br[i]? = some (some r)) :
    (countActualsBefore br i ≤ r →
      (resolveCombination marker br combo)[i]? = some (backRefLiteral marker r)) ∧
    (countActuals br ≤ r →
      (resolveChooseCombination marker br combo)[i]? = some (backRefLiteral marker r)) :=
  ⟨fun hr => resolveCombination_backRef_fallback marker br combo i r hi hr,
   fun hr => resolveChoose_backRef_fallback marker br combo i r hi hr⟩

/-- Witness for **C2 (amended)** at the template `{$5}{a|b}` shape
(`br = [some 5, none]`). -/
theorem claim_backref_literal_fallback_witness :
    (([some 5, none] : List (Option ℕ))[0]? = some (some 5)) ∧
    countActualsBefore [some 5, none] 0 ≤ 5 ∧
    (resolveCombination '$' [some 5, none] [JsVal.str "a".data])[0]? =
      some (backRefLiteral '$' 5) ∧
    countActuals [some 5, none] ≤ 5 ∧
    (resolveChooseCombination '$' [some 5, none] [JsVal.str "a".data])[0]? =
      some (backRefLiteral '$' 5) := by
  have h := claim_backref_literal_fallback '$' [some 5, none] [JsVal.str "a".data] 0 5
    (by decide)
  exact ⟨by decide, by decide, h.1 (by decide), by decide, h.2 (by decide)⟩

/-- Claim C6: in every combination of `parse`, a back-reference whose index
names an actual placeholder strictly earlier in the template resolves to
exactly the referent's value in that combination; in particular
`parse("You {see|hear|feel} the work. Once you {$0}.")` yields exactly the
three expected strings in order. -/
theorem claim_backreference_resolution :
    (∀ (marker : Char) (br : List (Option ℕ)) (combo : List JsVal) (i r j : ℕ),
      br[i]? = some (some r) → actualPos br r = some j → j < i →
      (resolveCombination marker br combo)[i]? = some (combo.getD r (JsVal.str [])) ∧
      (resolveCombination marker br combo)[j]? = some (combo.getD r (JsVal.str [])))
    ∧ parse "You \x7bsee|hear|feel\x7d the work. Once you \x7b$0\x7d." defaultConfig =
        ["You see the work. Once you see.",
         "You hear the work. Once you hear.",
         "You feel the work. Once you feel."] := by
  constructor
  · intro marker br combo i r j hi hj hji
    obtain ⟨hjn, hcount⟩ := actualPos_spec br r j hj
    have hlt : r < countActualsBefore br i := by
      have := countActualsBefore_lt_of_actual br j i hji hjn
      omega
    refine ⟨resolveCombination_backRef_value marker br combo i r hi hlt, ?_⟩
    rw [resolveCombination_actual marker br combo j hjn, hcount]
  · decide

/-- Witness for **C6** at `br = [none, some 0]`, the shape of
`"You {see|hear|feel} ... {$0}."`. -/
theorem claim_backreference_resolution_witness :
    (([none, some 0] : List (Option ℕ))[1]? = some (some 0)) ∧
    actualPos [none, some 0] 0 = some 0 ∧ (0 : ℕ) < 1 ∧
    (resolveCombination '$' [none, some 0] [JsVal.str "see".data])[1]? =
      some (JsVal.str "see".data) ∧
    (resolveCombination '$' [none, some 0] [JsVal.str "see".data])[0]? =
      some (JsVal.str "see".data) := by
  have h := (claim_backreference_resolution.1 '$' [none, some 0] [JsVal.str "see".data] 1 0 0
    (by decide) (by decide) (by decide))
  exact ⟨by decide, by decide, by decide, h.1, h.2⟩

/-! ## Lemmas for the sampler (`choose`) -/

theorem enumFrom_mem_of_getElem? {α : Type} :
    ∀ (l : List α) (n i : ℕ) (a : α), l[i]? = some a → (n + i, a) ∈ List.enumFrom n l := by
  intro l
  induction l with
  | nil => intro n i a h; simp at h
  | cons x l ih =>
    intro n i a h
    cases i with
    | zero =>
      simp at h
      subst h
      simp [List.enumFrom]
    | succ i =>
      simp at h
      have hrec := ih (n + 1) i a h
      have harith : n + (i + 1) = (n + 1) + i := by omega
      show (n + (i + 1), a) ∈ (n, x) :: List.enumFrom (n + 1) l
      rw [harith]
      exact List.mem_cons_of_mem _ hrec

theorem enum_mem_of_getElem? {α : Type} (l : List α) (i : ℕ) (a : α)
    (h : l[i]? = some a) : (i, a) ∈ l.enum := by
  have hrec := enumFrom_mem_of_getElem? l 0 i a h
  simpa using hrec

theorem getElem?_some_mem {α : Type} {l : List α} {n : ℕ} {a : α}
    (h : l[n]? = some a) : a ∈ l := by
  obtain ⟨hn, rfl⟩ := List.getElem?_eq_some.mp h
  exact List.getElem_mem hn

theorem resolveChoose_eq_resolve (marker : Char) (br : List (Option ℕ)) (combo : List JsVal)
    (hsafe : ∀ i r, br[i]? = some (some r) →
      r < countActualsBefore br i ∨ countActuals br ≤ r) :
    resolveChooseCombination marker br combo = resolveCombination marker br combo := by
  apply List.ext_getElem?
  intro i
  cases hbr : br[i]? with
  | none =>
    have hlen : br.length ≤ i := List.getElem?_eq_none_iff.mp hbr
    have h1 : (placeActuals br combo)[i]? = none := by
      rw [List.getElem?_eq_none_iff, placeActuals_length]
      exact hlen
    rw [resolveChoose_getElem?, resolveCombination_getElem?, h1]
    rfl
  | some o =>
    cases o with
    | none =>
      rw [resolveChoose_actual marker br combo i hbr,
        resolveCombination_actual marker br combo i hbr]
    | some r =>
      rcases hsafe i r hbr with hlt | hge
      · rw [resolveChoose_backRef_value marker br combo i r hbr
          (lt_of_lt_of_le hlt (countActualsBefore_le br i)),
          resolveCombination_backRef_value marker br combo i r hbr hlt]
      · rw [resolveChoose_backRef_fallback marker br combo i r hbr hge,
          resolveCombination_backRef_fallback marker br combo i r hbr
          (le_trans (countActualsBefore_le br i) hge)]

theorem select_enumFrom {α : Type} (d : α) (rand : ℕ → ℕ) (idxs : List ℕ) :
    ∀ (gens : List (List α)) (n : ℕ), n + gens.length ≤ idxs.length →
      (List.enumFrom n gens).map (fun kv =>
        kv.2.getD (match idxs[kv.1]? with | some ix => ix | none => rand kv.1) d) =
      List.zipWith (fun l i => l.getD i d) gens (idxs.drop n) := by
  intro gens
  induction gens with
  | nil => intro n _; rfl
  | cons g gens ih =>
    intro n hn
    have hnlt : n < idxs.length := by
      simp only [List.length_cons] at hn
      omega
    rw [List.drop_eq_getElem_cons hnlt]
    show ((n, g) :: List.enumFrom (n + 1) gens).map _ = _
    rw [List.map_cons, List.zipWith_cons_cons]
    congr 1
    · rw [List.getElem?_eq_getElem hnlt]
    · exact ih (n + 1) (by simp only [List.length_cons] at hn; omega)

theorem select_enum {α : Type} (d : α) (rand : ℕ → ℕ) (idxs : List ℕ)
    (gens : List (List α)) (h : gens.length ≤ idxs.length) :
    gens.enum.map (fun kv =>
      kv.2.getD (match idxs[kv.1]? with | some ix => ix | none => rand kv.1) d) =
    List.zipWith (fun l i => l.getD i d) gens idxs := by
  have h0 := select_enumFrom d rand idxs gens 0 (by omega)
  rw [List.drop_zero] at h0
  exact h0

theorem countActuals_map_backRefIndex (marker : Char) (patterns : List (List Char)) :
    countActuals (patterns.map (backRefIndex marker)) =
      (actualPatterns marker patterns).length := by
  unfold countActuals actualPatterns
  rw [List.filter_map, List.length_map]
  rfl

theorem parse_getElem? (cfg : Config) (template : String) (E : ℕ) :
    (parse template cfg)[E]? =
      ((cartesianProduct (templateActualGens cfg template))[E]?).map (fun combo =>
        String.mk (assemble (subHelper cfg.patternStart cfg.patternEnd template.data).2
          ((resolveCombination cfg.backReferenceMarker (templateBackRefs cfg template)
            combo).map JsVal.toChars))) := by
  unfold parse parseChars templateActualGens templateBackRefs
  simp only [List.getElem?_map, Option.map_map]
  rfl

theorem choose_eq_zipWith (cfg : Config) (template : String) (idxs : List ℕ) (rand : ℕ → ℕ)
    (h : (templateActualGens cfg template).length ≤ idxs.length) :
    choose template cfg idxs rand =
      String.mk (assemble (subHelper cfg.patternStart cfg.patternEnd template.data).2
        ((resolveChooseCombination cfg.backReferenceMarker (templateBackRefs cfg template)
          (List.zipWith (fun l i => l.getD i (JsVal.str "undefined".data))
            (templateActualGens cfg template) idxs)).map JsVal.toChars)) := by
  have h' : (List.map (patternGen cfg) (actualPatterns cfg.backReferenceMarker
      (subHelper cfg.patternStart cfg.patternEnd template.data).1)).length ≤ idxs.length := h
  simp only [choose, chooseChars]
  rw [select_enum _ rand idxs _ h']
  rfl

/-! ## Claim theorems (C7) -/

/-- Counterexample for C7: for the template `{$0} {A|B}` — a back-reference
to an actual placeholder *after* its own position — the sampler output
`choose(template)(0) = "A A"` is not a member of the set produced by
`parse`, which renders the forward reference as a literal. -/
theorem claim_choose_member_cex :
    choose "\x7b$0\x7d \x7bA|B\x7d" defaultConfig [0] (fun _ => 0) = "A A" ∧
    parse "\x7b$0\x7d \x7bA|B\x7d" defaultConfig = ["\x7b$0\x7d A", "\x7b$0\x7d B"] ∧
    choose "\x7b$0\x7d \x7bA|B\x7d" defaultConfig [0] (fun _ => 0) ∉
      parse "\x7b$0\x7d \x7bA|B\x7d" defaultConfig :=
  ⟨by decide, by decide, by decide⟩

/-- Claim C7 (amended): with one explicit in-range index per actual
placeholder, `choose` consults no randomness (the result is independent of
the random source); and provided additionally that every back-reference of
the template either points strictly backward (index < number of actuals
before it) or is out of range for the whole template, the sampler's output
is exactly the member of `parse`'s enumeration at the odometer position
encoded by those indices — in particular it is a member of the enumerated
set.  (Without that proviso, `choose` resolves forward references that
`parse` renders literally, and the output can leave the enumerated set.) -/
theorem claim_choose_explicit_indices (template : String) (cfg : Config) (idxs : List ℕ) :
    (countActuals (templateBackRefs cfg template) ≤ idxs.length →
      ∀ rand rand' : ℕ → ℕ, choose template cfg idxs rand = choose template cfg idxs rand')
    ∧ (idxs.length = countActuals (templateBackRefs cfg template) →
       (∀ p ∈ (templateActualGens cfg template).zip idxs, p.2 < p.1.length) →
       (∀ q ∈ (templateBackRefs cfg template).enum, ∀ r, q.2 = some r →
          r < countActualsBefore (templateBackRefs cfg template) q.1 ∨
          countActuals (templateBackRefs cfg template) ≤ r) →
       ∀ rand : ℕ → ℕ,
         (parse template cfg)[enumIndexOf
             ((templateActualGens cfg template).map List.length) idxs]? =
           some (choose template cfg idxs rand) ∧
         choose template cfg idxs rand ∈ parse template cfg) := by
  have hglen : (templateActualGens cfg template).length =
      countActuals (templateBackRefs cfg template) := by
    unfold templateActualGens templateBackRefs
    rw [List.length_map, countActuals_map_backRefIndex]
  constructor
  · intro hle rand rand'
    have hlen2 : (templateActualGens cfg template).length ≤ idxs.length := by
      rw [hglen]
      exact hle
    rw [choose_eq_zipWith cfg template idxs rand hlen2,
      choose_eq_zipWith cfg template idxs rand' hlen2]
  · intro hlen hb hsafe rand
    have hlen' : idxs.length = (templateActualGens cfg template).length := by
      rw [hglen]
      exact hlen
    have hgc := generateCombinations_getElem? (JsVal.str "undefined".data)
      (templateActualGens cfg template) idxs hlen' hb
    have hsafe' : ∀ i r, (templateBackRefs cfg template)[i]? = some (some r) →
        r < countActualsBefore (templateBackRefs cfg template) i ∨
        countActuals (templateBackRefs cfg template) ≤ r := by
      intro i r h
      exact hsafe (i, some r) (enum_mem_of_getElem? _ i (some r) h) r rfl
    have hres := resolveChoose_eq_resolve cfg.backReferenceMarker
      (templateBackRefs cfg template)
      (List.zipWith (fun l i => l.getD i (JsVal.str "undefined".data))
        (templateActualGens cfg template) idxs) hsafe'
    have hEq : (parse template cfg)[enumIndexOf
        ((templateActualGens cfg template).map List.length) idxs]? =
        some (choose template cfg idxs rand) := by
      rw [parse_getElem?, cartesianProduct_eq, hgc,
        choose_eq_zipWith cfg template idxs rand (by omega), hres]
      rfl
    exact ⟨hEq, getElem?_some_mem hEq⟩

/-- Witness for **C7 (amended)** at `choose("Count: {1,5} {A|B|C}")(1, 2)`,
which reproduces enumeration member 5, `"Count: 2 C"`. -/
theorem claim_choose_explicit_indices_witness :
    (parse "Count: \x7b1,5\x7d \x7bA|B|C\x7d" defaultConfig)[5]? =
      some (choose "Count: \x7b1,5\x7d \x7bA|B|C\x7d" defaultConfig [1, 2] (fun _ => 0)) ∧
    choose "Count: \x7b1,5\x7d \x7bA|B|C\x7d" defaultConfig [1, 2] (fun _ => 0) ∈
      parse "Count: \x7b1,5\x7d \x7bA|B|C\x7d" defaultConfig ∧
    choose "Count: \x7b1,5\x7d \x7bA|B|C\x7d" defaultConfig [1, 2] (fun _ => 0) =
      choose "Count: \x7b1,5\x7d \x7bA|B|C\x7d" defaultConfig [1, 2] (fun _ => 7) := by
  have h := (claim_choose_explicit_indices "Count: \x7b1,5\x7d \x7bA|B|C\x7d"
    defaultConfig [1, 2]).2 (by decide) (by decide) (by decide) (fun _ => 0)
  have hdet := (claim_choose_explicit_indices "Count: \x7b1,5\x7d \x7bA|B|C\x7d"
    defaultConfig [1, 2]).1 (by decide) (fun _ => 0) (fun _ => 7)
  have hidx : enumIndexOf ((templateActualGens defaultConfig
      "Count: \x7b1,5\x7d \x7bA|B|C\x7d").map List.length) [1, 2] = 5 := by decide
  rw [hidx] at h
  exact ⟨h.1, h.2, hdet⟩

/-! ## Lemmas about the tokenizer -/

theorem dropWhile_head_false {α : Type} (p : α → Bool) :
    ∀ (l : List α) (a : α) (t : List α), l.dropWhile p = a :: t → p a = false := by
  intro l
  induction l with
  | nil => intro a t h; simp [List.dropWhile] at h
  | cons x l ih =>
    intro a t h
    rw [List.dropWhile_cons] at h
    by_cases hx : p x = true
    · rw [if_pos hx] at h
      exact ih a t h
    · rw [if_neg hx] at h
      injection h with h1 _
      subst h1
      simpa using hx

theorem dropWhile_eq_self_of_none {α : Type} (p : α → Bool) :
    ∀ l : List α, (∀ c ∈ l, p c = false) → l.dropWhile p = l := by
  intro l h
  cases l with
  | nil => rfl
  | cons x l =>
    rw [List.dropWhile_cons, if_neg (by simp [h x (by simp)])]

theorem rebuild_cons_seg (ps pe c : Char) (sg : List Char) (t : List (List Char)) :
    ∀ pats : List (List Char),
      rebuild ps pe pats ((c :: sg) :: t) = c :: rebuild ps pe pats (sg :: t)
  | [] => rfl
  | _ :: _ => rfl

theorem scanAux_segs_ne_nil (ps pe : Char) :
    ∀ (fuel : ℕ) (cs : List Char), (scanAux ps pe fuel cs).2 ≠ [] := by
  intro fuel
  induction fuel with
  | zero =>
    intro cs
    cases cs with
    | nil => simp [scanAux]
    | cons c rest => simp [scanAux]
  | succ fuel ih =>
    intro cs
    cases cs with
    | nil => simp [scanAux]
    | cons c rest =>
      simp only [scanAux]
      by_cases hc : (c == ps) = true
      · rw [if_pos hc]
        split
        · simp
        · split <;> simp
      · rw [if_neg hc]
        split <;> simp

theorem scanAux_patterns_ne_nil (ps pe : Char) :
    ∀ (fuel : ℕ) (cs : List Char) (p : List Char),
      p ∈ (scanAux ps pe fuel cs).1 → p ≠ [] := by
  intro fuel
  induction fuel with
  | zero =>
    intro cs p hp
    cases cs with
    | nil => simp [scanAux] at hp
    | cons c rest => simp [scanAux] at hp
  | succ fuel ih =>
    intro cs p hp
    cases cs with
    | nil => simp [scanAux] at hp
    | cons c rest =>
      simp only [scanAux] at hp
      by_cases hc : (c == ps) = true
      · rw [if_pos hc] at hp
        split at hp
        · rename_i heq1 heq2
          simp only [List.mem_cons] at hp
          rcases hp with rfl | hp
          · simp
          · exact ih _ p hp
        · split at hp
          · exact ih rest p hp
          · exact ih rest p hp
      · rw [if_neg hc] at hp
        split at hp
        · exact ih rest p hp
        · exact ih rest p hp

theorem scanAux_rebuild (ps pe : Char) :
    ∀ (fuel : ℕ) (cs : List Char), cs.length ≤ fuel →
      rebuild ps pe (scanAux ps pe fuel cs).1 (scanAux ps pe fuel cs).2 = cs := by
  intro fuel
  induction fuel with
  | zero =>
    intro cs h
    have hnil : cs = [] := List.length_eq_zero.mp (by omega)
    subst hnil
    rfl
  | succ fuel ih =>
    intro cs h
    cases cs with
    | nil => rfl
    | cons c rest =>
      have hrest : rest.length ≤ fuel := by
        simp only [List.length_cons] at h
        omega
      simp only [scanAux]
      by_cases hc : (c == ps) = true
      · rw [if_pos hc]
        have hcps : c = ps := eq_of_beq hc
        split
        · rename_i d rest2 a content hdrop htake
          have hd : (fun x => !(x == pe)) d = false :=
            dropWhile_head_false _ rest d rest2 hdrop
          have hdpe : d = pe := by
            simp at hd
            exact hd
          have hsplit : (a :: content) ++ d :: rest2 = rest := by
            rw [← htake, ← hdrop]
            exact List.takeWhile_append_dropWhile _ _
          have hlen2 : rest2.length ≤ fuel := by
            have := congrArg List.length hsplit
            simp at this
            omega
          show rebuild ps pe ((a :: content) :: _) ([] :: _) = c :: rest
          show [] ++ ps :: ((a :: content) ++ pe :: rebuild ps pe
            (scanAux ps pe fuel rest2).1 (scanAux ps pe fuel rest2).2) = c :: rest
          rw [ih rest2 hlen2, List.nil_append, hcps, ← hsplit, hdpe]
        · rename_i hfail
          cases hseg : (scanAux ps pe fuel rest).2 with
          | nil => exact absurd hseg (scanAux_segs_ne_nil ps pe fuel rest)
          | cons sg t =>
            show rebuild ps pe (scanAux ps pe fuel rest).1 ((c :: sg) :: t) = c :: rest
            rw [rebuild_cons_seg, ← hseg, ih rest hrest]
      · rw [if_neg hc]
        cases hseg : (scanAux ps pe fuel rest).2 with
        | nil => exact absurd hseg (scanAux_segs_ne_nil ps pe fuel rest)
        | cons sg t =>
          show rebuild ps pe (scanAux ps pe fuel rest).1 ((c :: sg) :: t) = c :: rest
          rw [rebuild_cons_seg, ← hseg, ih rest hrest]

/-! ## Claim theorems (C9) -/

/-- Counterexample for C9: inside `{a{}b}` the empty pair `{}` is *not*
passed through verbatim: the tokenizer's greedy content run absorbs the
pair's start delimiter and its end delimiter terminates the enclosing
match, so `parse("{a{}b}") = ["a{b}"]` and no output contains `{}`. -/
theorem claim_empty_pattern_cex :
    isSubChars "\x7b\x7d".data "\x7ba\x7b\x7db\x7d".data = true ∧
    parse "\x7ba\x7b\x7db\x7d" defaultConfig = ["a\x7bb\x7d"] ∧
    isSubChars "\x7b\x7d".data "a\x7bb\x7d".data = false :=
  ⟨by decide, by decide, by decide⟩

/-- Claim C9 (amended): the tokenizer never produces an empty placeholder
token (for any configuration and template every extracted pattern is
nonempty), and every character outside a matched placeholder — including an
adjacent `{}` pair not absorbed by a surrounding match — is passed through
to the literal segments, which reassemble with the patterns to exactly the
original template; in particular `parse("a{}b") = ["a{}b"]`,
`count("a{}b") = 1`, and `{}` contributes factor 1 next to real
placeholders. -/
theorem claim_empty_pattern_behavior :
    (∀ (ps pe : Char) (t : List Char) (p : List Char),
      p ∈ (subHelper ps pe t).1 → p ≠ [])
    ∧ (∀ (ps pe : Char) (t : List Char),
        rebuild ps pe (subHelper ps pe t).1 (subHelper ps pe t).2 = t)
    ∧ parse "a\x7b\x7db" defaultConfig = ["a\x7b\x7db"]
    ∧ count "a\x7b\x7db" defaultConfig = 1
    ∧ parse "x\x7b\x7d\x7bA|B\x7d" defaultConfig = ["x\x7b\x7dA", "x\x7b\x7dB"]
    ∧ count "x\x7b\x7d\x7bA|B\x7d" defaultConfig = 2 :=
  ⟨fun ps pe t p hp => scanAux_patterns_ne_nil ps pe t.length t p hp,
   fun ps pe t => scanAux_rebuild ps pe t.length t (le_refl _),
   by decide, by decide, by decide, by decide⟩

/-- Witness for **C9 (amended)**: the membership hypothesis discharged at a
concrete template. -/
theorem claim_empty_pattern_behavior_witness :
    ("x".data ∈ (subHelper '\x7b' '\x7d' "a\x7bx\x7db".data).1) ∧ "x".data ≠ ([] : List Char) :=
  ⟨by decide,
   claim_empty_pattern_behavior.1 '\x7b' '\x7d' "a\x7bx\x7db".data "x".data (by decide)⟩

/-! ## Lemmas about back-reference classification -/

theorem jsTrim_eq_self (cs : List Char) (h : ∀ c ∈ cs, isJsSpace c = false) :
    jsTrim cs = cs := by
  unfold jsTrim
  rw [dropWhile_eq_self_of_none _ cs h,
    dropWhile_eq_self_of_none _ cs.reverse (fun c hc => h c (List.mem_reverse.mp hc))]
  exact List.reverse_reverse cs

theorem isJsSpace_eq_false_of_isDigit (c : Char) (h : c.isDigit = true) :
    isJsSpace c = false := by
  by_contra hc
  rw [Bool.not_eq_false] at hc
  unfold isJsSpace at hc
  simp only [Bool.or_eq_true, beq_iff_eq] at hc
  rcases hc with ((((rfl | rfl) | rfl) | rfl) | rfl) | rfl <;> exact absurd h (by decide)

/-! ## Claim theorems (C3) -/

/-- Counterexample for C3: a placeholder whose content is the marker plus
digits surrounded by whitespace (`" $0 "`) satisfies the claim's
trimmed-shape test but is *not* classified as a back-reference by the code
(the first regex match must equal the whole untrimmed pattern), so it falls
through to a single-option choice list and `parse` inserts the raw content
instead of resolving a reference. -/
theorem claim_backref_shape_cex :
    specIsBackRef '$' " $0 ".data = true ∧
    backRefIndex '$' " $0 ".data = none ∧
    parse "\x7bx|y\x7d \x7b $0 \x7d" defaultConfig = ["x  $0 ", "y  $0 "] :=
  ⟨by decide, by decide, by decide⟩

/-- Claim C3 (amended): a placeholder is classified as a back-reference iff
its content — with *no* surrounding whitespace allowed — is exactly the
marker immediately followed by one or more digits; any content that trims
differently from itself is never a back-reference, and a marker appearing
elsewhere (as in `${10|20}` or literal `$$$` text) never misclassifies. -/
theorem claim_backref_shape (marker : Char) (p : List Char) :
    (isJsSpace marker = false →
      ((backRefIndex marker p).isSome ↔
        ∃ ds : List Char, ds ≠ [] ∧ (∀ c ∈ ds, c.isDigit = true) ∧ p = marker :: ds))
    ∧ (jsTrim p ≠ p → backRefIndex marker p = none)
    ∧ parse "$\x7b10|20\x7d. $$$ dollars" defaultConfig =
        ["$10. $$$ dollars", "$20. $$$ dollars"] := by
  refine ⟨?_, ?_, by decide⟩
  · intro hm
    constructor
    · intro hsome
      match p, hsome with
      | c :: rest, hsome =>
        simp only [backRefIndex] at hsome
        by_cases hcond : (c == marker && !rest.isEmpty && rest.all Char.isDigit
            && jsTrim (c :: rest) == c :: rest) = true
        · simp only [Bool.and_eq_true, beq_iff_eq] at hcond
          obtain ⟨⟨⟨hc, hne⟩, hdig⟩, _⟩ := hcond
          refine ⟨rest, ?_, ?_, ?_⟩
          · intro hnil
            rw [hnil] at hne
            simp at hne
          · exact fun c hc => (List.all_eq_true.mp hdig) c hc
          · rw [hc]
        · rw [if_neg hcond] at hsome
          simp at hsome
    · intro ⟨ds, hne, hdig, hp⟩
      subst hp
      have htrim : jsTrim (marker :: ds) = marker :: ds := by
        apply jsTrim_eq_self
        intro c hc
        rcases List.mem_cons.mp hc with rfl | hcds
        · exact hm
        · exact isJsSpace_eq_false_of_isDigit c (hdig c hcds)
      simp only [backRefIndex]
      rw [if_pos]
      · simp
      · cases ds with
        | nil => exact absurd rfl hne
        | cons d ds2 =>
          rw [htrim]
          simp [List.all_eq_true.mpr hdig]
  · intro htrim
    match p with
    | [] => rfl
    | c :: rest =>
      simp only [backRefIndex]
      rw [if_neg]
      intro hcond
      simp only [Bool.and_eq_true, beq_iff_eq] at hcond
      exact htrim hcond.2

/-- Witness for **C3 (amended)**: `$0` is a back-reference, while a
whitespace-trimmed-differently content is not. -/
theorem claim_backref_shape_witness :
    isJsSpace '$' = false ∧ (backRefIndex '$' "$0".data).isSome ∧
    jsTrim " x".data ≠ " x".data ∧ backRefIndex '$' " x".data = none := by
  refine ⟨by decide, ?_, by decide, ?_⟩
  · exact ((claim_backref_shape '$' "$0".data).1 (by decide)).mpr
      ⟨"0".data, by decide, by decide, by decide⟩
  · exact (claim_backref_shape '$' " x".data).2.1 (by decide)

/-! ## Lemmas about range-pattern classification -/

theorem splitOnChar_ne_nil (sep : Char) : ∀ cs : List Char, splitOnChar sep cs ≠ [] := by
  intro cs
  cases cs with
  | nil => simp [splitOnChar]
  | cons c rest =>
    unfold splitOnChar
    split
    · split <;> simp
    · simp

theorem splitOnChar_length_ge_two_iff (sep : Char) :
    ∀ cs : List Char, 2 ≤ (splitOnChar sep cs).length ↔ cs.any (· == sep) = true := by
  intro cs
  induction cs with
  | nil => simp [splitOnChar]
  | cons c rest ih =>
    unfold splitOnChar
    cases hx : splitOnChar sep rest with
    | nil => exact absurd hx (splitOnChar_ne_nil sep rest)
    | cons h t =>
      show 2 ≤ (if (c == sep) = true then [] :: h :: t else (c :: h) :: t).length ↔
        ((c :: rest).any fun x => x == sep) = true
      by_cases hc : (c == sep) = true
      · rw [if_pos hc]
        simp [List.any_cons, hc]
      · rw [if_neg hc]
        simp only [List.any_cons, hc, Bool.false_or]
        rw [← ih, hx]
        simp

theorem splitOnChar_no_sep (sep : Char) :
    ∀ cs : List Char, cs.any (· == sep) = false → splitOnChar sep cs = [cs] := by
  intro cs
  induction cs with
  | nil => intro _; rfl
  | cons c rest ih =>
    intro h
    simp only [List.any_cons, Bool.or_eq_false_iff] at h
    unfold splitOnChar
    rw [ih h.2]
    simp [h.1]

theorem removeWhitespace_idem (cs : List Char) :
    removeWhitespace (removeWhitespace cs) = removeWhitespace cs := by
  unfold removeWhitespace
  rw [List.filter_filter]
  refine congrArg (fun p => List.filter p cs) (funext fun c => ?_)
  cases isJsSpace c <;> rfl

theorem isRangePattern_removeWhitespace (p : List Char) (sep : Char) :
    isRangePattern (removeWhitespace p) sep = isRangePattern p sep := by
  unfold isRangePattern
  rw [removeWhitespace_idem]

theorem parseRangePattern_removeWhitespace (p : List Char) (sep : Char) :
    parseRangePattern (removeWhitespace p) sep = parseRangePattern p sep := by
  unfold parseRangePattern
  rw [removeWhitespace_idem]

theorem parseDecPrefix_isSome_of_digit (c : Char) (rest : List Char)
    (hd : c.isDigit = true) : (parseDecPrefix (c :: rest)).isSome := by
  unfold parseDecPrefix
  rw [List.takeWhile_cons, if_pos hd, List.dropWhile_cons, if_pos hd]
  split
  · rw [if_neg (by simp)]
    simp
  · rw [if_neg (by simp)]
    simp

theorem parseSignedDec_isSome_of_digit (c : Char) (rest : List Char)
    (hd : c.isDigit = true) : (parseSignedDec (c :: rest)).isSome := by
  unfold parseSignedDec
  split
  · rename_i heq
    injection heq with h1 _
    subst h1
    exact absurd hd (by decide)
  · rename_i heq
    injection heq with h1 _
    subst h1
    exact absurd hd (by decide)
  · rename_i hne1 hne2
    exact parseDecPrefix_isSome_of_digit c rest hd

theorem parseFloatDefined_of_leading_digit (c : Char) (rest : List Char)
    (hd : c.isDigit = true) : parseFloatDefined (c :: rest) = true := by
  unfold parseFloatDefined jsParseFloat
  have hs := parseSignedDec_isSome_of_digit c rest hd
  rw [Bool.or_eq_true]
  left
  simpa using hs

theorem parseFloatDefined_of_decFull (cs : List Char)
    (h : (decFullValue cs).isSome) : parseFloatDefined cs = true := by
  unfold decFullValue at h
  split at h
  · rename_i q heq
    unfold parseFloatDefined jsParseFloat
    rw [Bool.or_eq_true]
    left
    rw [heq]
    rfl
  · simp at h

theorem numberValue_isSome_of_finite (cs : List Char) (h : numberIsFinite cs = true) :
    (numberValue cs).isSome := by
  unfold numberIsFinite at h
  split at h
  · rename_i q heq
    rw [heq]
    rfl
  · simp at h

theorem parseFloatDefined_of_numberValue (cs : List Char) (hne : cs ≠ [])
    (h : (numberValue cs).isSome) : parseFloatDefined cs = true := by
  unfold numberValue at h
  split at h
  · exact absurd rfl hne
  · exact parseFloatDefined_of_leading_digit '0' _ (by decide)
  · exact parseFloatDefined_of_decFull _ h

/-! ## Claim theorems (C8) -/

/-- Counterexample for C8: the source's part-validity check accepts every
string JavaScript parses as a finite number, not only "finite decimal
numbers (optional sign and fractional part only)": `1e1` (exponent) and
`0x10` (hex) are not decimal-shaped, yet `{5,1e1}` classifies as a range
and expands through `range(5, 10)`, giving `count("{5,1e1}") = 6`. -/
theorem claim_range_shape_cex :
    isRangePattern "5,1e1".data ',' = true ∧
    specDecimal "1e1".data = false ∧
    isRangePattern "0x10,5".data ',' = true ∧
    specDecimal "0x10".data = false ∧
    count "\x7b5,1e1\x7d" defaultConfig = 6 :=
  ⟨by decide, by decide, by decide, by decide, by decide⟩

/-- Claim C8 (amended): a non-back-reference placeholder is classified as a
numeric range iff, after removing all whitespace and stripping a trailing
run of the range separator, the content splits into exactly 2 or 3 nonempty
parts each of which JavaScript's `Number` accepts as a finite number
(decimal with optional sign, fraction and exponent, or an unsigned
radix-prefixed integer literal — strictly more than the claim's "optional
sign and fractional part only"); classification and range parameters are
whitespace-insensitive; any placeholder failing the check is split by the
choice separator on the original whitespace-preserving content, a content
with no separator being a single-option list; `{ 1, 3 }` and `{1,3}`
expand identically while `{A |B|C}` keeps the space in `"A "`. -/
theorem claim_range_shape (p : List Char) (sep : Char) :
    (isRangePattern p sep = true ↔
      ((splitOnChar sep (stripTrailingRun sep (removeWhitespace p))).length = 2 ∨
       (splitOnChar sep (stripTrailingRun sep (removeWhitespace p))).length = 3) ∧
      ∀ part ∈ splitOnChar sep (stripTrailingRun sep (removeWhitespace p)),
        part ≠ [] ∧ numberIsFinite part = true)
    ∧ isRangePattern (removeWhitespace p) sep = isRangePattern p sep
    ∧ parseRangePattern (removeWhitespace p) sep = parseRangePattern p sep
    ∧ (∀ cfg : Config, isRangePattern p cfg.separatorRange = false →
        patternGen cfg p = (splitOnChar cfg.separatorChoices p).map JsVal.str)
    ∧ (p.any (· == sep) = false → splitOnChar sep p = [p])
    ∧ parse "A\x7b 1, 3 \x7d" defaultConfig = parse "A\x7b1,3\x7d" defaultConfig
    ∧ patternGen defaultConfig "A |B|C".data =
        [JsVal.str "A ".data, JsVal.str "B".data, JsVal.str "C".data]
    ∧ parse "T\x7bA |B|C\x7d" defaultConfig ≠ parse "T\x7bA|B|C\x7d" defaultConfig := by
  refine ⟨?_, isRangePattern_removeWhitespace p sep, parseRangePattern_removeWhitespace p sep,
    ?_, splitOnChar_no_sep sep p, by decide, by decide, by decide⟩
  · simp only [isRangePattern]
    by_cases hany : (stripTrailingRun sep (removeWhitespace p)).any (· == sep) = true
    · rw [if_pos hany]
      constructor
      · intro h
        simp only [Bool.and_eq_true, decide_eq_true_eq, List.all_eq_true] at h
        obtain ⟨⟨h2, h3⟩, hall⟩ := h
        refine ⟨by omega, fun part hp => ?_⟩
        have hv := hall part hp
        simp only [Bool.and_eq_true] at hv
        obtain ⟨⟨hvne, _⟩, hvfin⟩ := hv
        refine ⟨?_, hvfin⟩
        intro hnil
        rw [hnil] at hvne
        simp at hvne
      · intro ⟨hlen, hparts⟩
        simp only [Bool.and_eq_true, decide_eq_true_eq, List.all_eq_true]
        refine ⟨⟨by omega, by omega⟩, fun part hp => ?_⟩
        obtain ⟨hne, hfin⟩ := hparts part hp
        have hbe : (!part.isEmpty) = true := by
          cases part with
          | nil => exact absurd rfl hne
          | cons a b => rfl
        rw [hbe, parseFloatDefined_of_numberValue part hne
          (numberValue_isSome_of_finite part hfin), hfin]
        exact ⟨⟨rfl, rfl⟩, rfl⟩
    · rw [if_neg hany]
      constructor
      · intro h
        simp at h
      · intro ⟨hlen, _⟩
        have h2 : 2 ≤ (splitOnChar sep (stripTrailingRun sep (removeWhitespace p))).length := by
          omega
        rw [splitOnChar_length_ge_two_iff] at h2
        exact absurd h2 hany
  · intro cfg h
    unfold patternGen
    rw [if_neg (by simp [h])]

/-- Witness for **C8 (amended)**: the classification test evaluated both
ways at concrete patterns. -/
theorem claim_range_shape_witness :
    isRangePattern "1,5".data ',' = true ∧
    (((splitOnChar ',' (stripTrailingRun ',' (removeWhitespace "1,5".data))).length = 2 ∨
      (splitOnChar ',' (stripTrailingRun ',' (removeWhitespace "1,5".data))).length = 3) ∧
     ∀ part ∈ splitOnChar ',' (stripTrailingRun ',' (removeWhitespace "1,5".data)),
       part ≠ [] ∧ numberIsFinite part = true) ∧
    isRangePattern "A|B".data ',' = false ∧
    patternGen defaultConfig "A|B".data = (splitOnChar '|' "A|B".data).map JsVal.str ∧
    ("A|B".data.any (· == ',') = false) ∧ splitOnChar ',' "A|B".data = ["A|B".data] := by
  refine ⟨by decide, ?_, by decide, ?_, by decide, ?_⟩
  · exact ((claim_range_shape "1,5".data ',').1).mp (by decide)
  · exact (claim_range_shape "A|B".data ',').2.2.2.1 defaultConfig (by decide)
  · exact (claim_range_shape "A|B".data ',').2.2.2.2.1 (by decide)

/-! ## Bridge lemmas between `JsNumber` and `ℚ` -/

namespace JsNumber

theorem val_ofInt (i : ℤ) : (ofInt i).val = (i : ℚ) := by
  simp [val, ofInt]

theorem val_ofNat (n : ℕ) : (ofNat n).val = (n : ℚ) := by
  simp [val, ofNat]

theorem den_add {a b : JsNumber} (ha : 0 < a.den) (hb : 0 < b.den) :
    0 < (a.add b).den := Nat.mul_pos ha hb

theorem den_sub {a b : JsNumber} (ha : 0 < a.den) (hb : 0 < b.den) :
    0 < (a.sub b).den := Nat.mul_pos ha hb

theorem den_mul {a b : JsNumber} (ha : 0 < a.den) (hb : 0 < b.den) :
    0 < (a.mul b).den := Nat.mul_pos ha hb

theorem den_ofInt (i : ℤ) : 0 < (ofInt i).den := Nat.one_pos

theorem den_ofNat (n : ℕ) : 0 < (ofNat n).den := Nat.one_pos

theorem den_div {a b : JsNumber} (ha : 0 < a.den) (hbn : b.num ≠ 0) :
    0 < (a.div b).den := by
  unfold div
  by_cases h1 : b.num < 0
  · rw [if_pos h1]
    have : (0 : ℤ) < -b.num := by omega
    exact Nat.mul_pos ha (by omega)
  · rw [if_neg h1, if_neg hbn]
    have : (0 : ℤ) < b.num := by omega
    exact Nat.mul_pos ha (by omega)

theorem val_add {a b : JsNumber} (ha : 0 < a.den) (hb : 0 < b.den) :
    (a.add b).val = a.val + b.val := by
  unfold add val
  have ha' : ((a.den : ℚ)) ≠ 0 := by positivity
  have hb' : ((b.den : ℚ)) ≠ 0 := by positivity
  push_cast
  field_simp

theorem val_sub {a b : JsNumber} (ha : 0 < a.den) (hb : 0 < b.den) :
    (a.sub b).val = a.val - b.val := by
  unfold sub val
  have ha' : ((a.den : ℚ)) ≠ 0 := by positivity
  have hb' : ((b.den : ℚ)) ≠ 0 := by positivity
  push_cast
  field_simp
  ring

theorem val_mul {a b : JsNumber} (ha : 0 < a.den) (hb : 0 < b.den) :
    (a.mul b).val = a.val * b.val := by
  unfold mul val
  have ha' : ((a.den : ℚ)) ≠ 0 := by positivity
  have hb' : ((b.den : ℚ)) ≠ 0 := by positivity
  push_cast
  field_simp

theorem val_div {a b : JsNumber} (ha : 0 < a.den) (hb : 0 < b.den) (hbn : b.num ≠ 0) :
    (a.div b).val = a.val / b.val := by
  have ha' : ((a.den : ℚ)) ≠ 0 := by positivity
  have hb' : ((b.den : ℚ)) ≠ 0 := by positivity
  have hbn' : ((b.num : ℚ)) ≠ 0 := by exact_mod_cast hbn
  unfold div val
  by_cases h1 : b.num < 0
  · rw [if_pos h1]
    have h2 : (((-b.num).toNat : ℕ) : ℚ) = -(b.num : ℚ) := by
      have h3 := Int.toNat_of_nonneg (show (0:ℤ) ≤ -b.num by omega)
      exact_mod_cast congrArg (fun z : ℤ => (z : ℚ)) h3
    push_cast
    rw [h2]
    field_simp
  · rw [if_neg h1, if_neg hbn]
    have h2 : ((b.num.toNat : ℕ) : ℚ) = (b.num : ℚ) := by
      have h3 := Int.toNat_of_nonneg (show (0:ℤ) ≤ b.num by omega)
      exact_mod_cast congrArg (fun z : ℤ => (z : ℚ)) h3
    push_cast
    rw [h2]
    field_simp

theorem le_iff {a b : JsNumber} (ha : 0 < a.den) (hb : 0 < b.den) :
    a.le b ↔ a.val ≤ b.val := by
  unfold le val
  rw [div_le_div_iff (by positivity) (by positivity)]
  constructor
  · intro h
    exact_mod_cast h
  · intro h
    exact_mod_cast h

theorem lt_iff {a b : JsNumber} (ha : 0 < a.den) (hb : 0 < b.den) :
    a.lt b ↔ a.val < b.val := by
  unfold lt val
  rw [div_lt_div_iff (by positivity) (by positivity)]
  constructor
  · intro h
    exact_mod_cast h
  · intro h
    exact_mod_cast h

theorem num_eq_zero_iff {a : JsNumber} (ha : 0 < a.den) : a.num = 0 ↔ a.val = 0 := by
  unfold val
  rw [div_eq_zero_iff]
  constructor
  · intro h
    left
    exact_mod_cast h
  · intro h
    rcases h with h | h
    · exact_mod_cast h
    · exact absurd h (by positivity)

theorem num_ne_zero_of_val_pos {a : JsNumber} (ha : 0 < a.den) (h : 0 < a.val) :
    a.num ≠ 0 := by
  intro h0
  rw [num_eq_zero_iff ha] at h0
  rw [h0] at h
  exact lt_irrefl 0 h

theorem floor_val (a : JsNumber) : a.floor = ⌊a.val⌋ := by
  unfold floor val
  exact (Rat.floor_intCast_div_natCast a.num a.den).symm

theorem trunc_eq_floor_of_nonneg {a : JsNumber} (ha : 0 < a.den) (h : 0 ≤ a.val) :
    a.trunc = ⌊a.val⌋ := by
  have hnum : 0 ≤ a.num := by
    by_contra hc
    push_neg at hc
    have hv : a.val < 0 := by
      unfold val
      apply div_neg_of_neg_of_pos
      · exact_mod_cast hc
      · positivity
    exact absurd hv (not_lt.mpr h)
  rw [← floor_val]
  unfold trunc floor
  exact Int.tdiv_eq_ediv hnum (by positivity)

end JsNumber

/-! ## Claim theorems (C5) -/

/-- Claim C5: for `start <= end` and `step > 0`, `range` yields
`start, start+step, start+2*step, ...` while the value is `<= end` (in that
order), and when `includeEnd` holds and `end` is not `start + k*step` for
any natural `k`, it additionally yields `end` as a final value, which is
strictly greater than every regularly-produced value (never duplicating or
going backward); in particular `range(1,5) = [1,2,3,4,5]`,
`range(0,10,2) = [0,2,4,6,8,10]`, `range(0,10,3,true) = [0,3,6,9,10]`. -/
theorem claim_range_values (s e st : JsNumber) (incl : Bool)
    (hs : 0 < s.den) (he : 0 < e.den) (hst : 0 < st.den)
    (hse : s.val ≤ e.val) (hpos : 0 < st.val) :
    ((incl = true ∧ ¬ ∃ k : ℕ, e.val = s.val + st.val * (k : ℚ)) →
      (rangeValues s e st incl).map JsNumber.val =
        ((List.range ((⌊(e.val - s.val) / st.val⌋).toNat + 1)).map
          (fun k : ℕ => s.val + st.val * (k : ℚ))) ++ [e.val])
    ∧ ((incl = false ∨ ∃ k : ℕ, e.val = s.val + st.val * (k : ℚ)) →
      (rangeValues s e st incl).map JsNumber.val =
        (List.range ((⌊(e.val - s.val) / st.val⌋).toNat + 1)).map
          (fun k : ℕ => s.val + st.val * (k : ℚ)))
    ∧ (∀ x : ℚ, (x ∈ (List.range ((⌊(e.val - s.val) / st.val⌋).toNat + 1)).map
          (fun k : ℕ => s.val + st.val * (k : ℚ))) ↔ ∃ k : ℕ, x = s.val + st.val * (k : ℚ) ∧ x ≤ e.val)
    ∧ ((¬ ∃ k : ℕ, e.val = s.val + st.val * (k : ℚ)) →
        ∀ x ∈ (List.range ((⌊(e.val - s.val) / st.val⌋).toNat + 1)).map
          (fun k : ℕ => s.val + st.val * (k : ℚ)), x < e.val)
    ∧ rangeValues (.ofInt 1) (.ofInt 5) (.ofInt 1) true =
        [.ofInt 1, .ofInt 2, .ofInt 3, .ofInt 4, .ofInt 5]
    ∧ rangeValues (.ofInt 0) (.ofInt 10) (.ofInt 2) true =
        [.ofInt 0, .ofInt 2, .ofInt 4, .ofInt 6, .ofInt 8, .ofInt 10]
    ∧ rangeValues (.ofInt 0) (.ofInt 10) (.ofInt 3) true =
        [.ofInt 0, .ofInt 3, .ofInt 6, .ofInt 9, .ofInt 10] := by
  have hA0 : (0:ℚ) ≤ e.val - s.val := by linarith
  have hstnum : st.num ≠ 0 := JsNumber.num_ne_zero_of_val_pos hst hpos
  have hes_den : 0 < (e.sub s).den := JsNumber.den_sub he hs
  have hq_den : 0 < ((e.sub s).div st).den := JsNumber.den_div hes_den hstnum
  have hq_val : ((e.sub s).div st).val = (e.val - s.val) / st.val := by
    rw [JsNumber.val_div hes_den hst hstnum, JsNumber.val_sub he hs]
  have hF : ((e.sub s).div st).floor = ⌊(e.val - s.val) / st.val⌋ := by
    rw [JsNumber.floor_val, hq_val]
  have hF0 : 0 ≤ ⌊(e.val - s.val) / st.val⌋ := Int.floor_nonneg.mpr (by positivity)
  have hguard : ¬ (s.le e ∧ st.le (JsNumber.ofInt 0)) := by
    rintro ⟨_, h0⟩
    rw [JsNumber.le_iff hst (JsNumber.den_ofInt 0), JsNumber.val_ofInt] at h0
    push_cast at h0
    linarith
  have hle : s.le e := (JsNumber.le_iff hs he).mpr hse
  have hshape : rangeValues s e st incl =
      (if incl = true ∧ ¬ (jsRem (e.sub s) st).num = 0 ∧
          (s.add (st.mul (JsNumber.ofInt ((e.sub s).div st).floor))).lt e
       then ((List.range ((((e.sub s).div st).floor).toNat + 1)).map
          (fun k => s.add (st.mul (JsNumber.ofNat k)))) ++ [e]
       else (List.range ((((e.sub s).div st).floor).toNat + 1)).map
          (fun k => s.add (st.mul (JsNumber.ofNat k)))) := by
    simp only [rangeValues]
    rw [if_neg hguard, if_pos hle]
  have hmap : ((List.range ((((e.sub s).div st).floor).toNat + 1)).map
      (fun k => s.add (st.mul (JsNumber.ofNat k)))).map JsNumber.val =
      (List.range ((⌊(e.val - s.val) / st.val⌋).toNat + 1)).map
        (fun k : ℕ => s.val + st.val * (k : ℚ)) := by
    rw [hF, List.map_map]
    refine congrArg (fun f => List.map f _) (funext fun k => ?_)
    simp only [Function.comp_def]
    rw [JsNumber.val_add hs (JsNumber.den_mul hst (JsNumber.den_ofNat k)),
      JsNumber.val_mul hst (JsNumber.den_ofNat k), JsNumber.val_ofNat]
  have htrunc : ((e.sub s).div st).trunc = ⌊(e.val - s.val) / st.val⌋ := by
    rw [JsNumber.trunc_eq_floor_of_nonneg hq_den (by rw [hq_val]; positivity), hq_val]
  have hrem_den : 0 < (jsRem (e.sub s) st).den := by
    unfold jsRem
    exact JsNumber.den_sub hes_den (JsNumber.den_mul hst (JsNumber.den_ofInt _))
  have hrem_val : (jsRem (e.sub s) st).val =
      (e.val - s.val) - st.val * ⌊(e.val - s.val) / st.val⌋ := by
    unfold jsRem
    rw [JsNumber.val_sub hes_den (JsNumber.den_mul hst (JsNumber.den_ofInt _)),
      JsNumber.val_sub he hs, JsNumber.val_mul hst (JsNumber.den_ofInt _),
      JsNumber.val_ofInt, htrunc]
  have hBne : st.val ≠ 0 := ne_of_gt hpos
  have hfloor_le : st.val * (⌊(e.val - s.val) / st.val⌋ : ℚ) ≤ e.val - s.val := by
    have h1 := Int.floor_le ((e.val - s.val) / st.val)
    have h2 := (mul_le_mul_left hpos).mpr h1
    calc st.val * (⌊(e.val - s.val) / st.val⌋:ℚ) ≤ st.val * ((e.val - s.val) / st.val) := h2
    _ = e.val - s.val := by field_simp
  have hcastF : ((⌊(e.val - s.val) / st.val⌋).toNat : ℚ) =
      (⌊(e.val - s.val) / st.val⌋ : ℚ) := by
    exact_mod_cast congrArg (fun z : ℤ => (z : ℚ)) (Int.toNat_of_nonneg hF0)
  have hrem_zero_iff : (jsRem (e.sub s) st).num = 0 ↔
      ∃ k : ℕ, e.val = s.val + st.val * (k : ℚ) := by
    rw [JsNumber.num_eq_zero_iff hrem_den, hrem_val]
    constructor
    · intro h0
      refine ⟨(⌊(e.val - s.val) / st.val⌋).toNat, ?_⟩
      rw [hcastF]
      linarith
    · rintro ⟨k, hk⟩
      have hAk : e.val - s.val = st.val * k := by rw [hk]; ring
      have hfl : ⌊(e.val - s.val) / st.val⌋ = (k : ℤ) := by
        rw [hAk, mul_comm, mul_div_assoc, div_self hBne, mul_one]
        exact_mod_cast Int.floor_natCast k
      rw [hfl, hAk]
      push_cast
      ring
  have hlast_den : 0 < (s.add (st.mul (JsNumber.ofInt ((e.sub s).div st).floor))).den :=
    JsNumber.den_add hs (JsNumber.den_mul hst (JsNumber.den_ofInt _))
  have hlast_val : (s.add (st.mul (JsNumber.ofInt ((e.sub s).div st).floor))).val =
      s.val + st.val * ⌊(e.val - s.val) / st.val⌋ := by
    rw [JsNumber.val_add hs (JsNumber.den_mul hst (JsNumber.den_ofInt _)),
      JsNumber.val_mul hst (JsNumber.den_ofInt _), JsNumber.val_ofInt, hF]
  have hlt_of_rem : (jsRem (e.sub s) st).num ≠ 0 →
      (s.add (st.mul (JsNumber.ofInt ((e.sub s).div st).floor))).lt e := by
    intro hne
    rw [JsNumber.lt_iff hlast_den he, hlast_val]
    have hne' : (e.val - s.val) - st.val * ⌊(e.val - s.val) / st.val⌋ ≠ 0 := by
      intro h0
      exact hne ((JsNumber.num_eq_zero_iff hrem_den).mpr (by rw [hrem_val]; exact h0))
    have hlt : st.val * (⌊(e.val - s.val) / st.val⌋:ℚ) < e.val - s.val :=
      lt_of_le_of_ne hfloor_le (fun h => hne' (by linarith))
    linarith
  have hmem_iff : ∀ x : ℚ, (x ∈ (List.range ((⌊(e.val - s.val) / st.val⌋).toNat + 1)).map
      (fun k : ℕ => s.val + st.val * (k : ℚ))) ↔ ∃ k : ℕ, x = s.val + st.val * (k : ℚ) ∧ x ≤ e.val := by
    intro x
    rw [List.mem_map]
    constructor
    · rintro ⟨k, hk, rfl⟩
      rw [List.mem_range] at hk
      refine ⟨k, rfl, ?_⟩
      have hk' : (k:ℤ) ≤ ⌊(e.val - s.val) / st.val⌋ := by
        rw [← Int.toNat_of_nonneg hF0]
        exact_mod_cast Nat.lt_succ_iff.mp hk
      have hk2 : (k:ℚ) ≤ (e.val - s.val) / st.val := by
        have := Int.le_floor.mp hk'
        exact_mod_cast this
      have hk3 : st.val * (k:ℚ) ≤ e.val - s.val := by
        rw [mul_comm]
        exact (le_div_iff hpos).mp hk2
      linarith
    · rintro ⟨k, rfl, hxe⟩
      refine ⟨k, ?_, rfl⟩
      rw [List.mem_range, Nat.lt_succ_iff]
      have hk3 : st.val * (k:ℚ) ≤ e.val - s.val := by linarith
      have hk2 : (k:ℚ) ≤ (e.val - s.val) / st.val := by
        rw [le_div_iff hpos]
        linarith [hk3]
      have hk' : (k:ℤ) ≤ ⌊(e.val - s.val) / st.val⌋ := Int.le_floor.mpr (by exact_mod_cast hk2)
      rw [← Int.toNat_of_nonneg hF0] at hk'
      exact_mod_cast hk'
  refine ⟨?_, ?_, hmem_iff, ?_, by decide, by decide, by decide⟩
  · rintro ⟨hincl, hnk⟩
    have hne : ¬ (jsRem (e.sub s) st).num = 0 := fun h0 => hnk (hrem_zero_iff.mp h0)
    rw [hshape, if_pos ⟨hincl, hne, hlt_of_rem hne⟩, List.map_append, hmap]
    rfl
  · intro hcase
    rw [hshape, if_neg ?_, hmap]
    rintro ⟨hincl, hne, _⟩
    rcases hcase with hf | hk
    · rw [hincl] at hf
      simp at hf
    · exact hne (hrem_zero_iff.mpr hk)
  · intro hnk x hx
    have hne : ¬ (jsRem (e.sub s) st).num = 0 := fun h0 => hnk (hrem_zero_iff.mp h0)
    obtain ⟨k, hk, rfl⟩ := List.mem_map.mp hx
    rw [List.mem_range] at hk
    have hk' : (k:ℤ) ≤ ⌊(e.val - s.val) / st.val⌋ := by
      rw [← Int.toNat_of_nonneg hF0]
      exact_mod_cast Nat.lt_succ_iff.mp hk
    have hk2 : (k:ℚ) ≤ (⌊(e.val - s.val) / st.val⌋ : ℚ) := by exact_mod_cast hk'
    have hlt : st.val * (⌊(e.val - s.val) / st.val⌋:ℚ) < e.val - s.val := by
      have hne' : (e.val - s.val) - st.val * ⌊(e.val - s.val) / st.val⌋ ≠ 0 := by
        intro h0
        exact hne ((JsNumber.num_eq_zero_iff hrem_den).mpr (by rw [hrem_val]; exact h0))
      exact lt_of_le_of_ne hfloor_le (fun h => hne' (by linarith))
    have hmono : st.val * (k:ℚ) ≤ st.val * (⌊(e.val - s.val) / st.val⌋:ℚ) := by
      exact mul_le_mul_of_nonneg_left hk2 (le_of_lt hpos)
    linarith

/-- Witness for **C5** at `range(0, 10, 3, true)`: 10 is appended though
off-step. -/
theorem claim_range_values_witness :
    (rangeValues (.ofInt 0) (.ofInt 10) (.ofInt 3) true).map JsNumber.val =
      ((List.range ((⌊((JsNumber.ofInt 10).val - (JsNumber.ofInt 0).val) /
          (JsNumber.ofInt 3).val⌋).toNat + 1)).map
        (fun k : ℕ => (JsNumber.ofInt 0).val + (JsNumber.ofInt 3).val * (k : ℚ))) ++
        [(JsNumber.ofInt 10).val] := by
  refine (claim_range_values (.ofInt 0) (.ofInt 10) (.ofInt 3) true (by decide) (by decide)
    (by decide) ?_ ?_).1 ⟨rfl, ?_⟩
  · norm_num [JsNumber.val, JsNumber.ofInt]
  · norm_num [JsNumber.val, JsNumber.ofInt]
  · rintro ⟨k, hk⟩
    norm_num [JsNumber.val, JsNumber.ofInt] at hk
    have hk' : (10:ℕ) = 3 * k := by exact_mod_cast hk
    omega

end Spintax
